import Mathlib

/-!
# myks: secret redaction, the fan-out executor, and the content hash

A shallow embedding of `internal/myks/util.go` and proofs about it.

* `reductSecrets` and `msgRunCmd`: the regexp replacement is modelled for the one pattern the
  source uses, on lists of characters.
* `process`: the goroutine group is modelled as a transition system. A run is a schedule of
  atomic steps (submit an item, enter `fn`, leave `fn`, return from the final wait); results
  are stated for every schedule, together with the facts that every run can be continued
  until `process` returns and that no run takes more than a bounded number of effective steps.
  `fn` is a function from items to an optional error.
* `sortYaml` and `hash`: documents are trees of scalars, sequences and string-keyed mappings;
  the formatter prints mappings in key order; SHA-256 is computed on natural numbers modulo
  `2 ^ 32`.
* `checkLockFileMatch` lives outside the available sources and is modelled from the
  specification.

Definitions come first, then auxiliary lemmas, then one theorem per claim.
-/

namespace Myks

/-! ## Definitions -/

/-- Whitespace in the sense of the regexp class that the pattern negates: the pattern's
value part is one or more characters outside tab, newline, form feed, carriage return, space. -/
def isSpace (c : Char) : Bool :=
  c = '\t' || c = '\n' || c = '\x0c' || c = '\r' || c = ' '

/-- The alternatives of the pattern built in reductSecrets (util.go, line 29), in source order. -/
def sensitiveFields : List (List Char) :=
  ["password".data, "secret".data, "token".data]

/-- The replacement text that the template puts after the field name and the equals sign. -/
def marker : List Char := "[REDACTED]".data

/-- Whether a text begins with a character that the value part of the pattern accepts. -/
def startsNonSpace : List Char → Bool
  | [] => false
  | d :: _ => !isSpace d

/-- The pattern with alternative k matches at the very start of s: s begins with k, an
equals sign, and at least one non-whitespace character. -/
def matchesAt (k s : List Char) : Bool :=
  (k ++ ['=']).isPrefixOf s && startsNonSpace (s.drop (k.length + 1))

/-- The alternative with which the pattern matches at the start of s, tried in source order. -/
def matchKey (s : List Char) : Option (List Char) :=
  sensitiveFields.find? (fun k => matchesAt k s)

/-- What is left of a text after its leading run of non-whitespace characters; the greedy
value part of the pattern consumes exactly that run. -/
def dropRun (s : List Char) : List Char := s.dropWhile (fun d => !isSpace d)

/-- The regexp replacement of util.go line 34 for the fixed pattern and template: scan from
the left; at a match emit the field, the equals sign and the marker and continue after the
matched value; otherwise copy one character. The first argument bounds the number of steps. -/
def replaceAll : Nat → List Char → List Char
  | 0, _ => []
  | _, [] => []
  | n + 1, c :: cs =>
    match matchKey (c :: cs) with
    | some k => k ++ '=' :: marker ++ replaceAll n (dropRun ((c :: cs).drop (k.length + 1)))
    | none => c :: replaceAll n cs

/-- The replacement run with enough steps for the whole text. -/
def replaceAllString (s : List Char) : List Char := replaceAll s.length s

/-- The leading run of non-whitespace characters of a text. -/
def run (s : List Char) : List Char := s.takeWhile (fun d => !isSpace d)

/-- The body of the loop of reductSecrets for one argument (util.go, lines 32 to 34). -/
def redact (arg : String) : String := String.mk (replaceAllString arg.data)

/-- Embedding of reductSecrets (util.go, lines 28 to 37): the redacted arguments are
appended one by one to an initially empty list. -/
def reductSecrets (args : List String) : List String :=
  args.foldl (fun logArgs arg => logArgs ++ [redact arg]) []

/-- Concatenation of the elements with a separator between neighbours, as done by the
library call in msgRunCmd. -/
def join : List String → String → String
  | [], _ => ""
  | [a], _ => a
  | a :: b :: t, sep => a ++ sep ++ join (b :: t) sep

/-- Embedding of msgRunCmd (util.go, lines 252 to 255). -/
def msgRunCmd (purpose cmd : String) (args : List String) : String :=
  let msg := cmd ++ " " ++ join (reductSecrets args) " "
  "Running \u001B[34m" ++ cmd ++ "\u001B[0m to: \u001B[3m" ++ purpose ++ "\u001B[0m\n\u001B[37m"
    ++ msg ++ "\u001B[0m"

/-- The kinds that reflection reports for a value. -/
inductive Kind where
  | Invalid | Bool | Int | Int8 | Int16 | Int32 | Int64
  | Uint | Uint8 | Uint16 | Uint32 | Uint64 | Uintptr
  | Float32 | Float64 | Complex64 | Complex128
  | Array | Chan | Func | Interface | Map | Pointer | Slice | String | Struct | UnsafePointer
  deriving DecidableEq, Repr

/-- The printed name of a kind, used in the error text of process. -/
def kindString : Kind → String
  | .Invalid => "invalid" | .Bool => "bool" | .Int => "int" | .Int8 => "int8"
  | .Int16 => "int16" | .Int32 => "int32" | .Int64 => "int64" | .Uint => "uint"
  | .Uint8 => "uint8" | .Uint16 => "uint16" | .Uint32 => "uint32" | .Uint64 => "uint64"
  | .Uintptr => "uintptr" | .Float32 => "float32" | .Float64 => "float64"
  | .Complex64 => "complex64" | .Complex128 => "complex128" | .Array => "array"
  | .Chan => "chan" | .Func => "func" | .Interface => "interface" | .Map => "map"
  | .Pointer => "ptr" | .Slice => "slice" | .String => "string" | .Struct => "struct"
  | .UnsafePointer => "unsafe.Pointer"

/-- The kinds handled by the first two cases of the switch in process. -/
def isCollectionKind : Kind → Bool
  | .Slice | .Array | .Map => true
  | _ => false

/-- The dynamically typed collection argument of process. A slice or array is given by its
elements; a map by its entries with pairwise distinct keys, listed in the order in which the
keys are enumerated in this run (the language leaves that order open); any other value,
the nil interface included, only by its kind. -/
inductive Collection (κ α : Type) where
  | slice (elems : List α)
  | array (elems : List α)
  | map (entries : List (κ × α)) (distinct : (entries.map Prod.fst).Nodup)
  | other (kind : Kind) (notColl : isCollectionKind kind = false)

/-- The kind reported for the collection argument. -/
def Collection.kind {κ α : Type} : Collection κ α → Kind
  | .slice _ => .Slice
  | .array _ => .Array
  | .map _ _ => .Map
  | .other k _ => k

/-- The errors process can return: the one it builds itself for a bad collection, or an
error returned by fn. -/
inductive ProcError (ε : Type) where
  | badCollection (msg : String)
  | failed (e : ε)
  deriving DecidableEq, Repr

/-- Lookup of the value stored under a key. -/
def mapIndex {κ α : Type} [DecidableEq κ] (entries : List (κ × α)) (key : κ) : Option α :=
  (entries.find? (fun p => p.1 = key)).map Prod.snd

/-- The switch of process (util.go, lines 42 to 54): the items of a slice or array are
read by index, the items of a map by looking up each enumerated key, and any other kind
ends process with the error text. -/
def collectItems {κ α : Type} [DecidableEq κ] : Collection κ α → Except String (List α)
  | .slice xs => .ok ((List.range xs.length).filterMap (fun i => xs[i]?))
  | .array xs => .ok ((List.range xs.length).filterMap (fun i => xs[i]?))
  | .map es _ => .ok ((es.map Prod.fst).filterMap (fun key => mapIndex es key))
  | .other k _ => .error ("collection must be a slice, array or map, got " ++ kindString k)

/-- The limit handed to the group (util.go, lines 57 to 60): zero becomes minus one. -/
def groupLimit (asyncLevel : Int) : Int :=
  if asyncLevel = 0 then -1 else asyncLevel

/-- State of one run of process after the items have been collected. Goroutines are named by
the index of their item. spawned: created by the group, fn not yet called; running: inside
fn; finished: returned from fn, in order of completion; calls: log of the invocations of fn;
err: the error kept by the group (set once); ret: the value process has returned, if it has. -/
structure ProcState (α ε : Type) where
  items : List α
  limit : Int
  next : Nat
  spawned : List Nat
  running : List Nat
  finished : List Nat
  calls : List (Nat × α)
  err : Option ε
  ret : Option (Option (ProcError ε))

/-- The atomic steps of a run: the loop hands the next item to the group, a goroutine
calls fn, a goroutine returns from fn, and the final wait returns. -/
inductive Action where
  | submit
  | start (i : Nat)
  | finish (i : Nat)
  | wait
  deriving DecidableEq, Repr

/-- The state in which the loop of process starts. -/
def initState {α ε : Type} (limit : Int) (items : List α) : ProcState α ε :=
  { items := items, limit := limit, next := 0, spawned := [], running := [],
    finished := [], calls := [], err := none, ret := none }

/-- Whether the group lets a further goroutine start: always for a negative limit,
otherwise only while fewer than limit goroutines hold a slot. -/
def slotFree {α ε : Type} (s : ProcState α ε) : Bool :=
  decide (s.limit < 0) || decide (((s.spawned.length + s.running.length : Nat) : Int) < s.limit)

/-- One step of a run. An action that is not enabled leaves the state unchanged: submitting
blocks while no slot is free, a goroutine can only call fn once and return once, and the wait
returns only after the loop has ended and every goroutine has returned. A returning goroutine
records its error if none was recorded before. -/
def step {α ε : Type} (fn : α → Option ε) (s : ProcState α ε) : Action → ProcState α ε
  | .submit =>
    if s.ret.isNone && decide (s.next < s.items.length) && slotFree s then
      { s with spawned := s.spawned ++ [s.next], next := s.next + 1 }
    else s
  | .start i =>
    if i ∈ s.spawned then
      match s.items[i]? with
      | some item =>
        { s with spawned := s.spawned.erase i, running := s.running ++ [i],
                 calls := s.calls ++ [(i, item)] }
      | none => s
    else s
  | .finish i =>
    if i ∈ s.running then
      { s with running := s.running.erase i, finished := s.finished ++ [i],
               err := match s.err with
                 | some e => some e
                 | none => (s.items[i]?).bind fn }
    else s
  | .wait =>
    if s.ret.isNone && decide (s.next = s.items.length) && s.spawned.isEmpty
        && s.running.isEmpty then
      { s with ret := some (s.err.map ProcError.failed) }
    else s

/-- Embedding of process (util.go, lines 39 to 70), run under a schedule of steps. For a
value that is no collection it returns the error at once and the schedule is not used. -/
def process {κ α ε : Type} [DecidableEq κ] (asyncLevel : Int) (collection : Collection κ α)
    (fn : α → Option ε) (sched : List Action) : ProcState α ε :=
  match collectItems collection with
  | .error msg =>
    { (initState (groupLimit asyncLevel) []) with ret := some (some (.badCollection msg)) }
  | .ok items => sched.foldl (step fn) (initState (groupLimit asyncLevel) items)

/-- Invariant of all reachable states of a run. -/
structure Inv {α ε : Type} (fn : α → Option ε) (s : ProcState α ε) : Prop where
  next_le : s.next ≤ s.items.length
  nodup : (s.spawned ++ s.running ++ s.finished).Nodup
  mem_iff : ∀ i, i ∈ s.spawned ++ s.running ++ s.finished ↔ i < s.next
  calls_nodup : (s.calls.map Prod.fst).Nodup
  calls_mem : ∀ i, i ∈ s.calls.map Prod.fst ↔ i ∈ s.running ∨ i ∈ s.finished
  calls_val : ∀ p ∈ s.calls, s.items[p.1]? = some p.2
  bound : 0 ≤ s.limit → ((s.spawned.length + s.running.length : Nat) : Int) ≤ s.limit
  err_eq : s.err = s.finished.findSome? (fun i => (s.items[i]?).bind fn)
  ret_done : ∀ r, s.ret = some r →
    s.next = s.items.length ∧ s.spawned = [] ∧ s.running = [] ∧ r = s.err.map ProcError.failed

/-- Run a schedule from a state. -/
def exec {α ε : Type} (fn : α → Option ε) (s : ProcState α ε) (sched : List Action) :
    ProcState α ε :=
  sched.foldl (step fn) s

/-- A bound on the number of effective steps a run can still take. -/
def remainingWork {α ε : Type} (s : ProcState α ε) : Nat :=
  3 * (s.items.length - s.next) + 2 * s.spawned.length + s.running.length +
    (if s.ret.isNone then 1 else 0)

/-- An action that is enabled in every state of a run that has not returned. -/
def nextAction {α ε : Type} (s : ProcState α ε) : Action :=
  match s.spawned with
  | i :: _ => .start i
  | [] =>
    match s.running with
    | i :: _ => .finish i
    | [] => if s.next < s.items.length then .submit else .wait

/-- A schedule that carries a run on for the given number of steps. -/
def complete {α ε : Type} (fn : α → Option ε) : Nat → ProcState α ε → List Action
  | 0, _ => []
  | k + 1, s => nextAction s :: complete fn k (step fn s (nextAction s))

/-- The elements of a collection as the specification speaks of them: the elements of a
slice or array, the values of the entries of a map. -/
def elementsOf {κ α : Type} : Collection κ α → List α
  | .slice xs => xs
  | .array xs => xs
  | .map es _ => es.map Prod.snd
  | .other _ _ => []

/-- The bytes of one character in UTF-8. -/
def utf8Bytes (c : Char) : List Nat :=
  let v := c.toNat
  if v < 0x80 then [v]
  else if v < 0x800 then [0xC0 + v / 64, 0x80 + v % 64]
  else if v < 0x10000 then [0xE0 + v / 4096, 0x80 + v / 64 % 64, 0x80 + v % 64]
  else [0xF0 + v / 262144, 0x80 + v / 4096 % 64, 0x80 + v / 64 % 64, 0x80 + v % 64]

/-- The bytes of a string. -/
def stringBytes (s : String) : List Nat := s.data.flatMap utf8Bytes

/-- Reduction to 32 bits. -/
def w32 (x : Nat) : Nat := x % 4294967296

/-- Rotation of a 32 bit word to the right. -/
def rotr (x n : Nat) : Nat := w32 ((x >>> n) ||| (x <<< (32 - n)))

/-- The round constants of SHA-256. -/
def k256 : List Nat :=
  [0x428a2f98, 0x71374491, 0xb5c0fbcf, 0xe9b5dba5, 0x3956c25b, 0x59f111f1, 0x923f82a4, 0xab1c5ed5,
   0xd807aa98, 0x12835b01, 0x243185be, 0x550c7dc3, 0x72be5d74, 0x80deb1fe, 0x9bdc06a7, 0xc19bf174,
   0xe49b69c1, 0xefbe4786, 0x0fc19dc6, 0x240ca1cc, 0x2de92c6f, 0x4a7484aa, 0x5cb0a9dc, 0x76f988da,
   0x983e5152, 0xa831c66d, 0xb00327c8, 0xbf597fc7, 0xc6e00bf3, 0xd5a79147, 0x06ca6351, 0x14292967,
   0x27b70a85, 0x2e1b2138, 0x4d2c6dfc, 0x53380d13, 0x650a7354, 0x766a0abb, 0x81c2c92e, 0x92722c85,
   0xa2bfe8a1, 0xa81a664b, 0xc24b8b70, 0xc76c51a3, 0xd192e819, 0xd6990624, 0xf40e3585, 0x106aa070,
   0x19a4c116, 0x1e376c08, 0x2748774c, 0x34b0bcb5, 0x391c0cb3, 0x4ed8aa4a, 0x5b9cca4f, 0x682e6ff3,
   0x748f82ee, 0x78a5636f, 0x84c87814, 0x8cc70208, 0x90befffa, 0xa4506ceb, 0xbef9a3f7, 0xc67178f2]

/-- The initial hash value of SHA-256. -/
def iv256 : List Nat :=
  [0x6a09e667, 0xbb67ae85, 0x3c6ef372, 0xa54ff53a, 0x510e527f, 0x9b05688c, 0x1f83d9ab, 0x5be0cd19]

/-- The big endian bytes of a number, at the given width. -/
def bigEndian (width n : Nat) : List Nat :=
  (List.range width).map (fun i => n / 256 ^ (width - 1 - i) % 256)

/-- SHA-256 padding: the message, one byte 0x80, zero bytes up to 56 modulo 64, and the bit
length in 8 bytes. -/
def pad (msg : List Nat) : List Nat :=
  msg ++ 0x80 :: List.replicate ((119 - msg.length % 64) % 64) 0 ++ bigEndian 8 (8 * msg.length)

/-- The message cut into blocks of 64 bytes. -/
def chunks : Nat → List Nat → List (List Nat)
  | 0, _ => []
  | n + 1, bs => bs.take 64 :: chunks n (bs.drop 64)

/-- The i-th big endian 32 bit word of a block. -/
def word (bs : List Nat) (i : Nat) : Nat :=
  ((bs.getD (4 * i) 0 * 256 + bs.getD (4 * i + 1) 0) * 256 + bs.getD (4 * i + 2) 0) * 256
    + bs.getD (4 * i + 3) 0

/-- Extension of the message schedule by the given number of words; the schedule is kept
newest first. -/
def extend : Nat → List Nat → List Nat
  | 0, w => w
  | n + 1, w =>
    let w2 := w.getD 1 0
    let w7 := w.getD 6 0
    let w15 := w.getD 14 0
    let w16 := w.getD 15 0
    let s0 := rotr w15 7 ^^^ rotr w15 18 ^^^ (w15 >>> 3)
    let s1 := rotr w2 17 ^^^ rotr w2 19 ^^^ (w2 >>> 10)
    extend n (w32 (w16 + s0 + w7 + s1) :: w)

/-- The 64 words of the message schedule of a block. -/
def schedule (chunk : List Nat) : List Nat :=
  (extend 48 ((List.range 16).map (word chunk)).reverse).reverse

/-- One round of the SHA-256 compression function on the eight working variables. -/
def round (st : List Nat) (kw : Nat × Nat) : List Nat :=
  match st with
  | [a, b, c, d, e, f, g, h] =>
    let s1 := rotr e 6 ^^^ rotr e 11 ^^^ rotr e 25
    let ch := (e &&& f) ^^^ ((4294967295 - e) &&& g)
    let t1 := w32 (h + s1 + ch + kw.1 + kw.2)
    let s0 := rotr a 2 ^^^ rotr a 13 ^^^ rotr a 22
    let maj := (a &&& b) ^^^ (a &&& c) ^^^ (b &&& c)
    let t2 := w32 (s0 + maj)
    [w32 (t1 + t2), a, b, c, w32 (d + t1), e, f, g]
  | _ => st

/-- The compression of one block into the hash value. -/
def compress (h : List Nat) (chunk : List Nat) : List Nat :=
  List.zipWith (fun x y => w32 (x + y)) h ((k256.zip (schedule chunk)).foldl round h)

/-- The SHA-256 digest of a byte sequence, 32 bytes. -/
def sum256 (msg : List Nat) : List Nat :=
  let p := pad msg
  ((chunks (p.length / 64) p).foldl compress iv256).flatMap (bigEndian 4)

/-- A lower case hexadecimal digit. -/
def hexDigit (n : Nat) : Char := "0123456789abcdef".data.getD n '0'

/-- Two hexadecimal digits per byte. -/
def hexChars (bs : List Nat) : List Char :=
  bs.flatMap (fun b => [hexDigit (b / 16), hexDigit (b % 16)])

/-- Lower case hexadecimal encoding of a byte sequence. -/
def encodeToString (bs : List Nat) : String := String.mk (hexChars bs)

/-- Embedding of hash (util.go, lines 172 to 175): the hexadecimal SHA-256 digest of the
bytes of the string. -/
def hash (s : String) : String := encodeToString (sum256 (stringBytes s))

/-- A decimal digit. -/
def digitChar (d : Nat) : Char := "0123456789".data.getD d '0'

/-- The decimal digits of a number, least significant first; the first argument bounds the
number of digits. -/
def digitsRev : Nat → Nat → List Nat
  | 0, _ => []
  | fuel + 1, n => if n < 10 then [n] else n % 10 :: digitsRev fuel (n / 10)

/-- Decimal text of a natural number. -/
def formatNat (n : Nat) : List Char := ((digitsRev (n + 1) n).reverse).map digitChar

/-- Decimal text of an integer, as the formatter prints it. -/
def formatInt (n : Int) : List Char :=
  if n < 0 then '-' :: formatNat n.natAbs else formatNat n.natAbs

/-- The number denoted by decimal digits given least significant first. -/
def ofDigits : List Nat → Nat
  | [] => 0
  | d :: t => d + 10 * ofDigits t

/-- The values a decoded document is made of: nil, booleans, integers, strings, sequences
and string-keyed mappings. The entries of a mapping are listed in some enumeration order; a
mapping has no two entries with the same key (see wellFormed). Floating point scalars are not
covered. -/
inductive Value where
  | null
  | bool (b : Bool)
  | int (n : Int)
  | str (s : String)
  | seq (items : List Value)
  | map (entries : List (String × Value))

/-- The printed elements separated by single spaces. -/
def joinSpace : List (List Char) → List Char
  | [] => []
  | [x] => x
  | x :: y :: t => x ++ ' ' :: joinSpace (y :: t)

/-- Comparison of two texts character by character, the order in which the formatter sorts
string keys. -/
def strLe : List Char → List Char → Bool
  | [], _ => true
  | _ :: _, [] => false
  | a :: s, b :: t => decide (a < b) || (decide (a = b) && strLe s t)

/-- Insertion of an entry before the first entry whose key is not smaller. -/
def insertEntry (e : String × List Char) : List (String × List Char) → List (String × List Char)
  | [] => [e]
  | b :: t => if strLe e.1.data b.1.data then e :: b :: t else b :: insertEntry e t

/-- The entries in ascending order of their keys (a stable sort). -/
def sortEntries : List (String × List Char) → List (String × List Char)
  | [] => []
  | e :: t => insertEntry e (sortEntries t)

/-- A key, a colon and the printed value. -/
def printEntry (e : String × List Char) : List Char := e.1.data ++ ':' :: e.2

mutual
/-- The default formatting of a value, as used by sortYaml: a mapping is printed as map,
an opening bracket, its entries in ascending key order separated by spaces, and a closing
bracket; a sequence as its items between brackets; scalars as their plain text. The entries are
printed first and sorted by key afterwards, which gives the same text as sorting first because
the order only looks at keys. -/
def printValue : Value → List Char
  | .null => "<nil>".data
  | .bool b => if b then "true".data else "false".data
  | .int n => formatInt n
  | .str s => s.data
  | .seq items => '[' :: joinSpace (printItems items) ++ [']']
  | .map entries =>
    "map[".data ++ joinSpace ((sortEntries (printEntries entries)).map printEntry) ++ [']']
/-- The printed items of a sequence. -/
def printItems : List Value → List (List Char)
  | [] => []
  | v :: t => printValue v :: printItems t
/-- The entries of a mapping with their values printed. -/
def printEntries : List (String × Value) → List (String × List Char)
  | [] => []
  | (k, v) :: t => (k, printValue v) :: printEntries t
end

/-- Embedding of sortYaml (util.go, lines 159 to 169): the empty string for a nil map,
otherwise the default formatting of the map; writing to the buffer never fails, so the error
is always nil. -/
def sortYaml (yaml : Option (List (String × Value))) : String × Option String :=
  match yaml with
  | none => ("", none)
  | some entries => (String.mk (printValue (.map entries)), none)

mutual
/-- No mapping inside the value, at any depth, has two entries with the same key. -/
def wellFormed : Value → Bool
  | .null => true
  | .bool _ => true
  | .int _ => true
  | .str _ => true
  | .seq items => wellFormedItems items
  | .map entries => decide ((entries.map Prod.fst).Nodup) && wellFormedEntries entries
/-- Every item is well formed. -/
def wellFormedItems : List Value → Bool
  | [] => true
  | v :: t => wellFormed v && wellFormedItems t
/-- Every entry has a well formed value. -/
def wellFormedEntries : List (String × Value) → Bool
  | [] => true
  | (_, v) :: t => wellFormed v && wellFormedEntries t
end

/-- Two values have the same content up to the order in which mappings list their keys:
the relation generated by permuting the entries of a mapping, inside any field or sequence item
at any depth. -/
inductive SameContent : Value → Value → Prop where
  | refl (v : Value) : SameContent v v
  | trans {a b c : Value} : SameContent a b → SameContent b c → SameContent a c
  | permute {es fs : List (String × Value)} : es.Perm fs → SameContent (.map es) (.map fs)
  | inField (pre : List (String × Value)) (key : String) (post : List (String × Value))
      {v w : Value} : SameContent v w →
      SameContent (.map (pre ++ (key, v) :: post)) (.map (pre ++ (key, w) :: post))
  | inItem (pre post : List Value) {v w : Value} : SameContent v w →
      SameContent (.seq (pre ++ v :: post)) (.seq (pre ++ w :: post))

/-- A position in a value: the value itself, or a position inside the value of one field
of a mapping, or inside one item of a sequence. -/
inductive Context where
  | here
  | field (pre : List (String × Value)) (key : String) (inner : Context)
      (post : List (String × Value))
  | item (pre : List Value) (inner : Context) (post : List Value)

/-- The value obtained by putting a value at the position. -/
def Context.fill : Context → Value → Value
  | .here, v => v
  | .field pre key inner post, v => .map (pre ++ (key, inner.fill v) :: post)
  | .item pre inner post, v => .seq (pre ++ inner.fill v :: post)

/-- Both values are booleans, both are integers, or both are strings. -/
def sameScalarKind : Value → Value → Bool
  | .bool _, .bool _ => true
  | .int _, .int _ => true
  | .str _, .str _ => true
  | _, _ => false

/-- Modelled from the spec: the Directory entity (Path, ContentHash, Secret); its declaration
is not part of the available sources, only the tests that build such values are. -/
structure Directory where
  Path : String
  ContentHash : String
  Secret : String
  deriving DecidableEq

/-- Modelled from the spec: checkPathMatch is only called from the tests in the available
sources; a path matches when some entry of the list has that Path. -/
def checkPathMatch (path : String) (syncDirs : List Directory) : Bool :=
  syncDirs.any (fun d => d.Path = path)

/-- Modelled from the spec: checkLockFileMatch is only called from the tests in the
available sources; following the drift validation rule, every Path of the declared list must
appear in the lock list, compared by Path only. -/
def checkLockFileMatch (vendirDirs lockFileDirs : List Directory) : Bool :=
  vendirDirs.all (fun d => checkPathMatch d.Path lockFileDirs)

/-! ## Lemmas: redaction -/

theorem key_facts : ∀ k ∈ sensitiveFields,
    '=' ∉ k ∧ (∀ c ∈ k, isSpace c = false) ∧ k ≠ [] := by decide

theorem marker_facts : '=' ∉ marker ∧ (∀ c ∈ marker, isSpace c = false) ∧ marker ≠ [] := by decide

theorem matchesAt_iff (k s : List Char) :
    matchesAt k s = true ↔ ∃ d rest, s = k ++ '=' :: d :: rest ∧ isSpace d = false := by
  unfold matchesAt
  rw [Bool.and_eq_true, List.isPrefixOf_iff_prefix]
  constructor
  · rintro ⟨⟨t, rfl⟩, h2⟩
    have : (k ++ ['='] ++ t).drop (k.length + 1) = t := by
      have : (k ++ ['=']).length = k.length + 1 := by simp
      rw [← this, List.drop_left]
    rw [this] at h2
    cases t with
    | nil => simp [startsNonSpace] at h2
    | cons d rest =>
      refine ⟨d, rest, by simp, ?_⟩
      simpa [startsNonSpace] using h2
  · rintro ⟨d, rest, rfl, hd⟩
    refine ⟨⟨d :: rest, by simp⟩, ?_⟩
    have : (k ++ '=' :: d :: rest).drop (k.length + 1) = d :: rest := by
      have e : k ++ '=' :: d :: rest = (k ++ ['=']) ++ d :: rest := by simp
      have : (k ++ ['=']).length = k.length + 1 := by simp
      rw [e, ← this, List.drop_left]
    rw [this]; simp [startsNonSpace, hd]

theorem split_at_eq {u u' v v' : List Char} (h : u ++ '=' :: v = u' ++ '=' :: v')
    (hu : '=' ∉ u) (hu' : '=' ∉ u') : u = u' ∧ v = v' := by
  induction u generalizing u' with
  | nil =>
    cases u' with
    | nil => simpa using h
    | cons a t => simp at h; simp [← h.1] at hu'
  | cons a t ih =>
    cases u' with
    | nil => simp at h; simp [h.1] at hu
    | cons b t' =>
      simp at h
      simp at hu hu'
      obtain ⟨rfl, h⟩ := h
      obtain ⟨rfl, rfl⟩ := ih h hu.2 hu'.2
      exact ⟨rfl, rfl⟩

theorem matchesAt_unique {k k' s : List Char} (hk : k ∈ sensitiveFields)
    (hk' : k' ∈ sensitiveFields) (h : matchesAt k s = true) (h' : matchesAt k' s = true) :
    k = k' := by
  obtain ⟨d, r, rfl, _⟩ := (matchesAt_iff k _).1 h
  obtain ⟨d', r', e, _⟩ := (matchesAt_iff k' _).1 h'
  exact (split_at_eq e (key_facts k hk).1 (key_facts k' hk').1).1

theorem matchKey_eq_some {k s : List Char} :
    matchKey s = some k ↔ k ∈ sensitiveFields ∧ matchesAt k s = true := by
  constructor
  · intro h
    exact ⟨List.mem_of_find?_eq_some h, by simpa using List.find?_some h⟩
  · rintro ⟨hk, hm⟩
    cases h : matchKey s with
    | none =>
      have := List.find?_eq_none.1 h k hk
      simp [hm] at this
    | some k' =>
      have hk' := List.mem_of_find?_eq_some h
      have hm' : matchesAt k' s = true := by simpa using List.find?_some h
      rw [matchesAt_unique hk hk' hm hm']

theorem matchKey_eq_none {s : List Char} :
    matchKey s = none ↔ ∀ k ∈ sensitiveFields, matchesAt k s = false := by
  unfold matchKey
  rw [List.find?_eq_none]
  simp

theorem dropRun_length_le (s : List Char) : (dropRun s).length ≤ s.length := by
  unfold dropRun
  exact (List.dropWhile_sublist _).length_le

theorem replaceAll_fuel : ∀ (n : Nat) (s : List Char), s.length ≤ n →
    replaceAll n s = replaceAll s.length s := by
  intro n
  induction n using Nat.strong_induction_on with
  | _ n ih =>
    intro s hs
    cases s with
    | nil => cases n <;> simp [replaceAll]
    | cons c cs =>
      cases n with
      | zero => simp at hs
      | succ n =>
        simp only [List.length_cons, replaceAll]
        cases hm : matchKey (c :: cs) with
        | none =>
          simp only
          rw [ih n (by omega) cs (by simpa using hs)]
        | some k =>
          simp only
          have hl : (dropRun ((c :: cs).drop (k.length + 1))).length ≤ cs.length := by
            refine le_trans (dropRun_length_le _) ?_
            simp
          rw [ih n (by omega) _ (le_trans hl (by simpa using hs)),
            ih cs.length (by simp at hs; omega) _ hl]

theorem red_nil : replaceAllString [] = [] := rfl

theorem red_cons_none {c : Char} {cs : List Char} (h : matchKey (c :: cs) = none) :
    replaceAllString (c :: cs) = c :: replaceAllString cs := by
  simp [replaceAllString, replaceAll, h]

theorem red_match {k s : List Char} (h : matchKey s = some k) :
    replaceAllString s = k ++ '=' :: marker ++ replaceAllString (dropRun (s.drop (k.length + 1))) := by
  cases s with
  | nil => simp [matchKey, matchesAt, sensitiveFields] at h
  | cons c cs =>
    have hl : (dropRun ((c :: cs).drop (k.length + 1))).length ≤ cs.length := by
      refine le_trans (dropRun_length_le _) ?_
      simp
    simp only [replaceAllString, List.length_cons, replaceAll, h]
    rw [replaceAll_fuel _ _ hl]

theorem startsNonSpace_dropRun (s : List Char) : startsNonSpace (dropRun s) = false := by
  induction s with
  | nil => rfl
  | cons c cs ih =>
    unfold dropRun
    rw [List.dropWhile_cons]
    split
    · exact ih
    · rename_i h
      simpa [startsNonSpace] using h

theorem dropRun_of_not_starts {s : List Char} (h : startsNonSpace s = false) : dropRun s = s := by
  cases s with
  | nil => rfl
  | cons c cs =>
    simp [startsNonSpace] at h
    simp [dropRun, List.dropWhile_cons, h]

theorem run_of_not_starts {s : List Char} (h : startsNonSpace s = false) : run s = [] := by
  cases s with
  | nil => rfl
  | cons c cs =>
    simp [startsNonSpace] at h
    simp [run, List.takeWhile_cons, h]

theorem dropRun_append {a b : List Char} (ha : ∀ c ∈ a, isSpace c = false) :
    dropRun (a ++ b) = dropRun b := by
  induction a with
  | nil => rfl
  | cons c cs ih =>
    have hc := ha c (List.mem_cons_self _ _)
    have := ih (fun x hx => ha x (List.mem_cons_of_mem _ hx))
    simp only [dropRun] at this ⊢
    simp [List.dropWhile_cons, hc, this]

theorem run_append {a b : List Char} (ha : ∀ c ∈ a, isSpace c = false) :
    run (a ++ b) = a ++ run b := by
  induction a with
  | nil => rfl
  | cons c cs ih =>
    have hc := ha c (List.mem_cons_self _ _)
    have := ih (fun x hx => ha x (List.mem_cons_of_mem _ hx))
    simp only [run] at this ⊢
    simp [List.takeWhile_cons, hc, this]

theorem matchKey_decomp {k s : List Char} (h : matchKey s = some k) :
    k ∈ sensitiveFields ∧ ∃ d v, s = k ++ '=' :: d :: v ∧ isSpace d = false ∧
      replaceAllString s = k ++ '=' :: marker ++ replaceAllString (dropRun (d :: v)) := by
  obtain ⟨hk, hm⟩ := matchKey_eq_some.1 h
  obtain ⟨d, v, rfl, hd⟩ := (matchesAt_iff k _).1 hm
  refine ⟨hk, d, v, rfl, hd, ?_⟩
  rw [red_match h]
  have : (k ++ '=' :: d :: v).drop (k.length + 1) = d :: v := by
    have e : k ++ '=' :: d :: v = (k ++ ['=']) ++ d :: v := by simp
    have : (k ++ ['=']).length = k.length + 1 := by simp
    rw [e, ← this, List.drop_left]
  rw [this]

theorem startsNonSpace_red (s : List Char) : startsNonSpace (replaceAllString s) = startsNonSpace s := by
  cases s with
  | nil => rfl
  | cons c cs =>
    cases h : matchKey (c :: cs) with
    | none => rw [red_cons_none h]; rfl
    | some k =>
      obtain ⟨hk, d, v, e, hd, hr⟩ := matchKey_decomp h
      rw [hr, e]
      obtain ⟨_, hns, hne⟩ := key_facts k hk
      cases k with
      | nil => exact absurd rfl hne
      | cons a t => rfl

theorem red_agree : ∀ (n : Nat) (s u rest : List Char), s.length ≤ n →
    replaceAllString s = u ++ '=' :: rest → '=' ∉ u →
    ∃ rest', s = u ++ '=' :: rest' ∧ startsNonSpace rest' = startsNonSpace rest := by
  intro n
  induction n with
  | zero =>
    intro s u rest hs h _
    have : s = [] := List.length_eq_zero.1 (Nat.le_zero.1 hs)
    subst this
    simp [red_nil] at h
  | succ n ih =>
    intro s u rest hs h hu
    cases s with
    | nil => simp [red_nil] at h
    | cons c cs =>
      cases hm : matchKey (c :: cs) with
      | none =>
        rw [red_cons_none hm] at h
        cases u with
        | nil =>
          simp at h
          obtain ⟨rfl, rfl⟩ := h
          exact ⟨cs, rfl, (startsNonSpace_red cs).symm⟩
        | cons a u' =>
          simp at h
          obtain ⟨rfl, h⟩ := h
          simp at hu
          obtain ⟨rest', rfl, hr⟩ := ih cs u' rest (by simpa using hs) h hu.2
          exact ⟨rest', rfl, hr⟩
      | some k =>
        obtain ⟨hk, d, v, e, hd, hr⟩ := matchKey_decomp hm
        rw [hr] at h
        have h' : k ++ '=' :: (marker ++ replaceAllString (dropRun (d :: v))) = u ++ '=' :: rest := by
          simpa using h
        obtain ⟨rfl, rfl⟩ := split_at_eq h' (key_facts k hk).1 hu
        refine ⟨d :: v, e, ?_⟩
        simp [startsNonSpace, hd, marker]
        decide

theorem matchesAt_red {k s : List Char} (hk : k ∈ sensitiveFields)
    (h : matchesAt k (replaceAllString s) = true) : matchesAt k s = true := by
  obtain ⟨d, r, e, hd⟩ := (matchesAt_iff k _).1 h
  obtain ⟨rest', rfl, hr⟩ := red_agree s.length s k (d :: r) le_rfl e (key_facts k hk).1
  cases rest' with
  | nil => simp [startsNonSpace, hd] at hr
  | cons d' r' =>
    refine (matchesAt_iff k _).2 ⟨d', r', rfl, ?_⟩
    simpa [startsNonSpace, hd] using hr

theorem red_idem : ∀ (n : Nat) (s : List Char), s.length ≤ n → replaceAllString (replaceAllString s) = replaceAllString s := by
  intro n
  induction n using Nat.strong_induction_on with
  | _ n ih =>
    intro s hs
    cases s with
    | nil => rfl
    | cons c cs =>
      cases hm : matchKey (c :: cs) with
      | none =>
        have hn : matchKey (c :: replaceAllString cs) = none := by
          rw [matchKey_eq_none]
          intro k hk
          by_contra hc
          have hc' : matchesAt k (replaceAllString (c :: cs)) = true := by
            rw [red_cons_none hm]; simpa using hc
          have := matchesAt_red hk hc'
          rw [matchKey_eq_none.1 hm k hk] at this
          exact absurd this (by simp)
        rw [red_cons_none hm, red_cons_none hn]
        simp at hs
        rw [ih cs.length (by omega) cs le_rfl]
      | some k =>
        obtain ⟨hk, d, v, e, hd, hr⟩ := matchKey_decomp hm
        have hlen : (dropRun (d :: v)).length < n := by
          have h1 := dropRun_length_le (d :: v)
          have h2 : (c :: cs).length = (k ++ '=' :: d :: v).length := by rw [e]
          simp at h1 h2 hs
          omega
        rw [hr]
        have hm2 : matchKey (k ++ '=' :: marker ++ replaceAllString (dropRun (d :: v))) = some k := by
          rw [matchKey_eq_some]
          refine ⟨hk, (matchesAt_iff k _).2 ⟨'[', "REDACTED]".data ++ replaceAllString (dropRun (d :: v)), ?_, by decide⟩⟩
          simp [marker]
        obtain ⟨_, d2, v2, e2, hd2, hr2⟩ := matchKey_decomp hm2
        rw [hr2]
        have e3 : k ++ '=' :: (marker ++ replaceAllString (dropRun (d :: v))) = k ++ '=' :: d2 :: v2 := by
          simpa using e2
        have e4 := (split_at_eq e3 (key_facts k hk).1 (key_facts k hk).1).2
        rw [← e4, dropRun_append marker_facts.2.1,
          dropRun_of_not_starts (by rw [startsNonSpace_red]; exact startsNonSpace_dropRun _),
          ih _ hlen _ le_rfl]

theorem split_unique {x z u m : List Char} (h : x ++ '=' :: z = u ++ '=' :: m)
    (hu : '=' ∉ u) (hm : '=' ∉ m) : x = u ∧ z = m := by
  induction x generalizing u with
  | nil =>
    cases u with
    | nil => simpa using h
    | cons a t => simp at h; simp [← h.1] at hu
  | cons a t ih =>
    cases u with
    | nil =>
      simp at h
      exact absurd (by rw [← h.2]; simp) hm
    | cons b t' =>
      simp at h hu
      obtain ⟨rfl, h⟩ := h
      obtain ⟨rfl, rfl⟩ := ih h hu.2
      exact ⟨rfl, rfl⟩

theorem red_clean : ∀ (n : Nat) (s : List Char), s.length ≤ n →
    ∀ (pre k rest : List Char), k ∈ sensitiveFields → replaceAllString s = pre ++ k ++ '=' :: rest →
      run rest = [] ∨ run rest = marker := by
  intro n
  induction n using Nat.strong_induction_on with
  | _ n ih =>
    intro s hs pre k rest hk h
    cases s with
    | nil =>
      rw [red_nil] at h
      exact absurd (congrArg List.length h) (by simp; omega)
    | cons c cs =>
      simp at hs
      cases hm : matchKey (c :: cs) with
      | none =>
        cases pre with
        | nil =>
          cases hsn : startsNonSpace rest with
          | false => exact Or.inl (run_of_not_starts hsn)
          | true =>
            exfalso
            cases rest with
            | nil => simp [startsNonSpace] at hsn
            | cons d r =>
              have hd : isSpace d = false := by simpa [startsNonSpace] using hsn
              have h1 : matchesAt k (replaceAllString (c :: cs)) = true :=
                (matchesAt_iff k _).2 ⟨d, r, by simpa using h, hd⟩
              have := matchesAt_red hk h1
              rw [matchKey_eq_none.1 hm k hk] at this
              exact absurd this (by simp)
        | cons a pre' =>
          rw [red_cons_none hm] at h
          simp at h
          exact ih cs.length (by omega) cs le_rfl pre' k rest hk (by simpa using h.2)
      | some k0 =>
        obtain ⟨hk0, d, v, e, hd, hr⟩ := matchKey_decomp hm
        have hlen : (dropRun (d :: v)).length < n := by
          have h1 := dropRun_length_le (d :: v)
          have h2 : (c :: cs).length = (k0 ++ '=' :: d :: v).length := by rw [e]
          simp at h1 h2
          omega
        have hB : startsNonSpace (replaceAllString (dropRun (d :: v))) = false := by
          rw [startsNonSpace_red]; exact startsNonSpace_dropRun _
        rw [hr] at h
        have h' : (k0 ++ '=' :: marker) ++ replaceAllString (dropRun (d :: v)) =
            pre ++ ((k ++ ['=']) ++ rest) := by simpa using h
        rcases List.append_eq_append_iff.1 h' with ⟨a', hp, hb⟩ | ⟨c', hA, hX⟩
        · exact ih _ hlen _ le_rfl a' k rest hk (by simpa using hb)
        · rcases List.append_eq_append_iff.1 hX with ⟨a2, hc', hrest⟩ | ⟨c2, hkc, hb2⟩
          · right
            have hA' : pre ++ k ++ '=' :: a2 = k0 ++ '=' :: marker := by
              rw [hA, hc']; simp
            obtain ⟨_, rfl⟩ := split_unique hA' (key_facts k0 hk0).1 marker_facts.1
            rw [hrest, run_append marker_facts.2.1, run_of_not_starts hB]
            simp
          · cases c2 with
            | nil =>
              left
              simp at hb2
              rw [← hb2]
              exact run_of_not_starts hB
            | cons x c3 =>
              exfalso
              have hx : x ∈ k ++ ['='] := by rw [hkc]; simp
              have hxs : isSpace x = false := by
                rcases List.mem_append.1 hx with hx | hx
                · exact (key_facts k hk).2.1 x hx
                · simp at hx; subst hx; decide
              rw [hb2] at hB
              simp [startsNonSpace, hxs] at hB

theorem red_unchanged (s : List Char)
    (h : ∀ k ∈ sensitiveFields, ∀ pre d rest, s = pre ++ k ++ '=' :: d :: rest → isSpace d = true) :
    replaceAllString s = s := by
  induction s with
  | nil => rfl
  | cons c cs ih =>
    have hm : matchKey (c :: cs) = none := by
      rw [matchKey_eq_none]
      intro k hk
      by_contra hc
      obtain ⟨d, r, e, hd⟩ := (matchesAt_iff k _).1 (by simpa using hc)
      have := h k hk [] d r (by simpa using e)
      rw [hd] at this
      exact absurd this (by simp)
    rw [red_cons_none hm, ih]
    intro k hk pre d rest e
    exact h k hk (c :: pre) d rest (by simp [e])

theorem redact_data (arg : String) : (redact arg).data = replaceAllString arg.data := rfl

theorem reductSecrets_eq_map (args : List String) : reductSecrets args = args.map redact := by
  unfold reductSecrets
  have : ∀ (acc : List String),
      args.foldl (fun logArgs arg => logArgs ++ [redact arg]) acc = acc ++ args.map redact := by
    induction args with
    | nil => intro acc; simp
    | cons a t ih => intro acc; simp [ih]
  simpa using this []

theorem matchKey_space_none {w : Char} (hw : isSpace w = true) (b : List Char) :
    matchKey (w :: b) = none := by
  rw [matchKey_eq_none]
  intro k hk
  by_contra hc
  obtain ⟨d, r, e, _⟩ := (matchesAt_iff k _).1 (by simpa using hc)
  obtain ⟨_, hns, hne⟩ := key_facts k hk
  cases k with
  | nil => exact hne rfl
  | cons a t =>
    simp at e
    have := hns a (by simp)
    rw [← e.1, hw] at this
    exact absurd this (by simp)

theorem dropRun_append_space {w : Char} (hw : isSpace w = true) (b : List Char) :
    ∀ x : List Char, dropRun (x ++ w :: b) = dropRun x ++ w :: b := by
  intro x
  induction x with
  | nil => simp [dropRun, List.dropWhile_cons, hw]
  | cons c t ih =>
    simp only [dropRun] at ih ⊢
    by_cases hc : isSpace c = true
    · simp [List.dropWhile_cons, hc]
    · simp [List.dropWhile_cons, hc, ih]

theorem matchesAt_append_space {k a b : List Char} {w : Char} (hk : k ∈ sensitiveFields)
    (hw : isSpace w = true) :
    matchesAt k (a ++ w :: b) = matchesAt k a := by
  rw [Bool.eq_iff_iff, matchesAt_iff, matchesAt_iff]
  constructor
  · rintro ⟨d, r, e, hd⟩
    have e' : a ++ w :: b = (k ++ ['=', d]) ++ r := by simpa using e
    rcases List.append_eq_append_iff.1 e' with ⟨a', hK, hwb⟩ | ⟨c', ha, _⟩
    · cases a' with
      | nil => exact ⟨d, [], by simpa using hK.symm, hd⟩
      | cons x c2 =>
        exfalso
        simp at hwb
        have hx : w ∈ k ++ ['=', d] := by rw [hK, hwb.1]; simp
        rcases List.mem_append.1 hx with h1 | h1
        · have := (key_facts k hk).2.1 w h1
          rw [hw] at this; exact absurd this (by simp)
        · simp at h1
          rcases h1 with h1 | h1
          · rw [h1] at hw; exact absurd hw (by decide)
          · rw [h1, hd] at hw; exact absurd hw (by simp)
    · exact ⟨d, c', by simpa using ha, hd⟩
  · rintro ⟨d, r, e, hd⟩
    exact ⟨d, r ++ w :: b, by simp [e], hd⟩

theorem red_append_space {w : Char} (hw : isSpace w = true) (b : List Char) :
    ∀ (n : Nat) (a : List Char), a.length ≤ n → replaceAllString (a ++ w :: b) = replaceAllString a ++ w :: replaceAllString b := by
  intro n
  induction n using Nat.strong_induction_on with
  | _ n ih =>
    intro a ha
    cases a with
    | nil => simp [red_nil, red_cons_none (matchKey_space_none hw b)]
    | cons c cs =>
      simp at ha
      cases hm : matchKey (c :: cs) with
      | none =>
        have hm' : matchKey (c :: (cs ++ w :: b)) = none := by
          rw [matchKey_eq_none]
          intro k hk
          have := @matchesAt_append_space k (c :: cs) b w hk hw
          rw [List.cons_append] at this
          rw [this]
          exact matchKey_eq_none.1 hm k hk
        rw [List.cons_append, red_cons_none hm', red_cons_none hm,
          ih cs.length (by omega) cs le_rfl]
        simp
      | some k =>
        obtain ⟨hk, d, v, e, hd, hr⟩ := matchKey_decomp hm
        have hm' : matchKey ((c :: cs) ++ w :: b) = some k := by
          rw [matchKey_eq_some]
          refine ⟨hk, ?_⟩
          rw [matchesAt_append_space hk hw]
          exact (matchKey_eq_some.1 hm).2
        obtain ⟨_, d2, v2, e2, _, hr2⟩ := matchKey_decomp hm'
        have e3 : k ++ '=' :: (d :: v ++ w :: b) = k ++ '=' :: d2 :: v2 := by
          rw [← e2, e]; simp
        have e4 := (split_at_eq e3 (key_facts k hk).1 (key_facts k hk).1).2
        have hlen : (dropRun (d :: v)).length < n := by
          have h1 := dropRun_length_le (d :: v)
          have h2 : (c :: cs).length = (k ++ '=' :: d :: v).length := by rw [e]
          simp at h1 h2
          omega
        rw [hr2, ← e4, dropRun_append_space hw b, ih _ hlen _ le_rfl, hr]
        simp

theorem join_data_cons (a b : String) (t : List String) :
    (join (a :: b :: t) " ").data = a.data ++ ' ' :: (join (b :: t) " ").data := by
  simp [join, String.data_append]

theorem join_redact (args : List String) :
    (join (args.map redact) " ").data = replaceAllString (join args " ").data := by
  induction args with
  | nil => rfl
  | cons a t ih =>
    cases t with
    | nil => rfl
    | cons b u =>
      rw [List.map_cons, List.map_cons, join_data_cons, join_data_cons,
        red_append_space (by decide) _ _ _ le_rfl]
      rw [List.map_cons] at ih
      rw [ih]
      rfl

theorem red_first_match (k value post : List Char) (hk : k ∈ sensitiveFields)
    (hv : value ≠ []) (hns : ∀ c ∈ value, isSpace c = false)
    (hpost : startsNonSpace post = false) :
    ∀ pre : List Char, '=' ∉ pre →
      replaceAllString (pre ++ k ++ '=' :: value ++ post) = pre ++ k ++ '=' :: marker ++ replaceAllString post := by
  have key : ∀ pre : List Char, '=' ∉ pre → ∀ k' ∈ sensitiveFields,
      matchKey (pre ++ k ++ '=' :: value ++ post) = some k' →
      replaceAllString (pre ++ k ++ '=' :: value ++ post) = pre ++ k ++ '=' :: marker ++ replaceAllString post := by
    intro pre hpre k' hk' hm
    obtain ⟨_, d, v, e, _, hr⟩ := matchKey_decomp hm
    have e' : (pre ++ k) ++ '=' :: (value ++ post) = k' ++ '=' :: d :: v := by
      rw [← e]; simp
    have hnot : '=' ∉ pre ++ k := by
      intro h
      rcases List.mem_append.1 h with h | h
      · exact hpre h
      · exact (key_facts k hk).1 h
    obtain ⟨e1, e2⟩ := split_at_eq e' hnot (key_facts k' hk').1
    rw [hr, ← e2, ← e1, dropRun_append hns, dropRun_of_not_starts hpost]
  intro pre
  induction pre with
  | nil =>
    intro _
    obtain ⟨d, v, rfl⟩ := List.exists_cons_of_ne_nil hv
    have hm : matchKey ([] ++ k ++ '=' :: (d :: v) ++ post) = some k := by
      rw [matchKey_eq_some]
      exact ⟨hk, (matchesAt_iff k _).2 ⟨d, v ++ post, by simp, hns d (by simp)⟩⟩
    exact key [] (by simp) k hk hm
  | cons c t ih =>
    intro hpre
    cases hm : matchKey (c :: t ++ k ++ '=' :: value ++ post) with
    | some k' => exact key (c :: t) hpre k' (matchKey_eq_some.1 hm).1 hm
    | none =>
      have hm' : matchKey (c :: (t ++ k ++ '=' :: value ++ post)) = none := by simpa using hm
      have : c :: t ++ k ++ '=' :: value ++ post = c :: (t ++ k ++ '=' :: value ++ post) := by
        simp
      rw [this, red_cons_none hm', ih (fun h => hpre (List.mem_cons_of_mem _ h))]
      simp

/-! ## Lemmas: the executor -/

theorem inv_init {α ε : Type} (fn : α → Option ε) (limit : Int) (items : List α) :
    Inv fn (initState limit items) := by
  constructor <;> simp [initState]

theorem step_items {α ε : Type} (fn : α → Option ε) (s : ProcState α ε) (a : Action) :
    (step fn s a).items = s.items ∧ (step fn s a).limit = s.limit := by
  cases a <;> simp only [step] <;> repeat' split
  all_goals exact ⟨rfl, rfl⟩

theorem inv_step {α ε : Type} (fn : α → Option ε) (s : ProcState α ε) (a : Action)
    (h : Inv fn s) : Inv fn (step fn s a) := by
  cases a with
  | submit =>
    simp only [step]
    split
    · rename_i hg
      simp only [Bool.and_eq_true, decide_eq_true_eq, Option.isNone_iff_eq_none] at hg
      obtain ⟨⟨hret, hlt⟩, hfree⟩ := hg
      have hnot : s.next ∉ s.spawned ++ s.running ++ s.finished := by
        intro hm; exact absurd ((h.mem_iff _).1 hm) (lt_irrefl _)
      constructor
      · show s.next + 1 ≤ s.items.length
        omega
      · show (s.spawned ++ [s.next] ++ s.running ++ s.finished).Nodup
        have : (s.spawned ++ [s.next] ++ s.running ++ s.finished).Perm
            (s.next :: (s.spawned ++ s.running ++ s.finished)) := by
          simp only [List.append_assoc]
          exact (@List.perm_middle _ s.next s.spawned (s.running ++ s.finished))
        exact this.nodup_iff.2 (List.nodup_cons.2 ⟨hnot, h.nodup⟩)
      · intro i
        show i ∈ s.spawned ++ [s.next] ++ s.running ++ s.finished ↔ i < s.next + 1
        have := h.mem_iff i
        simp only [List.mem_append, List.mem_singleton] at this ⊢
        constructor
        · rintro (((h1 | h1) | h1) | h1)
          · have := this.1 (Or.inl (Or.inl h1)); omega
          · omega
          · have := this.1 (Or.inl (Or.inr h1)); omega
          · have := this.1 (Or.inr h1); omega
        · intro hi
          rcases Nat.lt_succ_iff_lt_or_eq.1 hi with h1 | h1
          · rcases this.2 h1 with (h2 | h2) | h2
            · exact Or.inl (Or.inl (Or.inl h2))
            · exact Or.inl (Or.inr h2)
            · exact Or.inr h2
          · exact Or.inl (Or.inl (Or.inr h1))
      · exact h.calls_nodup
      · exact h.calls_mem
      · exact h.calls_val
      · intro hl
        show (((s.spawned ++ [s.next]).length + s.running.length : Nat) : Int) ≤ s.limit
        simp only [slotFree, Bool.or_eq_true, decide_eq_true_eq] at hfree
        have hb := h.bound hl
        simp only [List.length_append, List.length_singleton]
        rcases hfree with hf | hf
        · omega
        · push_cast at hf ⊢; omega
      · exact h.err_eq
      · intro r hr
        exact absurd (hret ▸ hr) (by simp)
    · exact h
  | start i =>
    simp only [step]
    split
    · rename_i hi
      split
      · rename_i item hitem
        have hnd := h.nodup
        rw [List.append_assoc, List.nodup_append] at hnd
        obtain ⟨hsp, hrf, hdisj⟩ := hnd
        have hirf : i ∉ s.running ++ s.finished := fun hm => hdisj hi hm
        constructor
        · exact h.next_le
        · show (s.spawned.erase i ++ (s.running ++ [i]) ++ s.finished).Nodup
          have : (s.spawned.erase i ++ (s.running ++ [i]) ++ s.finished).Perm
              (s.spawned ++ s.running ++ s.finished) := by
            have h1 : (i :: s.spawned.erase i).Perm s.spawned := (List.perm_cons_erase hi).symm
            have h2 : (s.spawned.erase i ++ (s.running ++ [i]) ++ s.finished).Perm
                ((i :: s.spawned.erase i) ++ s.running ++ s.finished) := by
              simp only [List.append_assoc, List.cons_append]
              refine List.Perm.trans ?_ (@List.perm_middle _ i (s.spawned.erase i)
                (s.running ++ s.finished))
              refine List.Perm.append_left _ ?_
              simp
            exact h2.trans ((h1.append_right _).append_right _)
          exact this.nodup_iff.2 h.nodup
        · intro j
          show j ∈ s.spawned.erase i ++ (s.running ++ [i]) ++ s.finished ↔ j < s.next
          rw [← h.mem_iff j]
          simp only [List.mem_append, List.mem_singleton, hsp.mem_erase_iff]
          constructor
          · rintro ((h1 | (h1 | h1)) | h1)
            · exact Or.inl (Or.inl h1.2)
            · exact Or.inl (Or.inr h1)
            · subst h1; exact Or.inl (Or.inl hi)
            · exact Or.inr h1
          · rintro ((h1 | h1) | h1)
            · by_cases hj : j = i
              · exact Or.inl (Or.inr (Or.inr hj))
              · exact Or.inl (Or.inl ⟨hj, h1⟩)
            · exact Or.inl (Or.inr (Or.inl h1))
            · exact Or.inr h1
        · show ((s.calls ++ [(i, item)]).map Prod.fst).Nodup
          rw [List.map_append, List.map_singleton]
          refine List.Nodup.append h.calls_nodup (List.nodup_singleton _) ?_
          intro x hx hx'
          simp only [List.mem_singleton] at hx'
          subst hx'
          exact hirf (List.mem_append.2 ((h.calls_mem _).1 hx))
        · intro j
          show j ∈ (s.calls ++ [(i, item)]).map Prod.fst ↔ j ∈ s.running ++ [i] ∨ j ∈ s.finished
          rw [List.map_append, List.mem_append, h.calls_mem j]
          simp only [List.map_singleton, List.mem_singleton, List.mem_append]
          tauto
        · intro p hp
          show s.items[p.1]? = some p.2
          rcases List.mem_append.1 hp with h1 | h1
          · exact h.calls_val p h1
          · simp only [List.mem_singleton] at h1
            subst h1; exact hitem
        · intro hl
          show (((s.spawned.erase i).length + (s.running ++ [i]).length : Nat) : Int) ≤ s.limit
          have hb := h.bound hl
          have hlen := List.length_erase_of_mem hi
          have hpos : 0 < s.spawned.length := List.length_pos_of_mem hi
          simp only [List.length_append, List.length_singleton]
          omega
        · exact h.err_eq
        · intro r hr
          have := (h.ret_done r hr).2.1
          rw [this] at hi
          exact absurd hi (by simp)
      · exact h
    · exact h
  | finish i =>
    simp only [step]
    split
    · rename_i hi
      have hnd := h.nodup
      rw [List.nodup_append] at hnd
      obtain ⟨hsr, hf, hdisj⟩ := hnd
      rw [List.nodup_append] at hsr
      obtain ⟨hsp, hrun, hdisj2⟩ := hsr
      constructor
      · exact h.next_le
      · show (s.spawned ++ s.running.erase i ++ (s.finished ++ [i])).Nodup
        have : (s.spawned ++ s.running.erase i ++ (s.finished ++ [i])).Perm
            (s.spawned ++ s.running ++ s.finished) := by
          simp only [List.append_assoc]
          refine List.Perm.append_left _ ?_
          have h1 : (s.running.erase i ++ (s.finished ++ [i])).Perm
              (i :: s.running.erase i ++ s.finished) := by
            rw [← List.append_assoc]
            exact List.perm_append_singleton i (s.running.erase i ++ s.finished)
          exact h1.trans ((List.perm_cons_erase hi).symm.append_right _)
        exact this.nodup_iff.2 h.nodup
      · intro j
        show j ∈ s.spawned ++ s.running.erase i ++ (s.finished ++ [i]) ↔ j < s.next
        rw [← h.mem_iff j]
        simp only [List.mem_append, List.mem_singleton, hrun.mem_erase_iff]
        constructor
        · rintro ((h1 | h1) | (h1 | h1))
          · exact Or.inl (Or.inl h1)
          · exact Or.inl (Or.inr h1.2)
          · exact Or.inr h1
          · subst h1; exact Or.inl (Or.inr hi)
        · rintro ((h1 | h1) | h1)
          · exact Or.inl (Or.inl h1)
          · by_cases hj : j = i
            · exact Or.inr (Or.inr hj)
            · exact Or.inl (Or.inr ⟨hj, h1⟩)
          · exact Or.inr (Or.inl h1)
      · exact h.calls_nodup
      · intro j
        show j ∈ s.calls.map Prod.fst ↔ j ∈ s.running.erase i ∨ j ∈ s.finished ++ [i]
        rw [h.calls_mem j]
        simp only [List.mem_append, List.mem_singleton, hrun.mem_erase_iff]
        constructor
        · rintro (h1 | h1)
          · by_cases hj : j = i
            · exact Or.inr (Or.inr hj)
            · exact Or.inl ⟨hj, h1⟩
          · exact Or.inr (Or.inl h1)
        · rintro (h1 | h1 | h1)
          · exact Or.inl h1.2
          · exact Or.inr h1
          · subst h1; exact Or.inl hi
      · exact h.calls_val
      · intro hl
        show (((s.spawned.length + (s.running.erase i).length : Nat)) : Int) ≤ s.limit
        have hb := h.bound hl
        have hlen := List.length_erase_of_mem hi
        omega
      · show (match s.err with
            | some e => some e
            | none => (s.items[i]?).bind fn) =
          (s.finished ++ [i]).findSome? (fun i => (s.items[i]?).bind fn)
        rw [List.findSome?_append, ← h.err_eq]
        cases s.err with
        | some e => simp
        | none =>
          simp only [Option.none_or, List.findSome?]
          cases s.items[i]?.bind fn <;> rfl
      · intro r hr
        have := (h.ret_done r hr).2.2.1
        rw [this] at hi
        exact absurd hi (by simp)
    · exact h
  | wait =>
    simp only [step]
    split
    · rename_i hg
      simp only [Bool.and_eq_true, decide_eq_true_eq, Option.isNone_iff_eq_none,
        List.isEmpty_iff] at hg
      obtain ⟨⟨⟨hret, hn⟩, hs⟩, hr⟩ := hg
      constructor
      · exact h.next_le
      · exact h.nodup
      · exact h.mem_iff
      · exact h.calls_nodup
      · exact h.calls_mem
      · exact h.calls_val
      · exact h.bound
      · exact h.err_eq
      · intro r hr'
        simp only [Option.some.injEq] at hr'
        exact ⟨hn, hs, hr, hr'.symm⟩
    · exact h

theorem inv_exec {α ε : Type} (fn : α → Option ε) (sched : List Action) :
    ∀ s : ProcState α ε, Inv fn s → Inv fn (exec fn s sched) := by
  induction sched with
  | nil => intro s h; exact h
  | cons a t ih => intro s h; exact ih _ (inv_step fn s a h)

theorem exec_items {α ε : Type} (fn : α → Option ε) (sched : List Action) :
    ∀ s : ProcState α ε, (exec fn s sched).items = s.items ∧ (exec fn s sched).limit = s.limit := by
  induction sched with
  | nil => intro s; exact ⟨rfl, rfl⟩
  | cons a t ih =>
    intro s
    have h1 := ih (step fn s a)
    have h2 := step_items fn s a
    exact ⟨h1.1.trans h2.1, h1.2.trans h2.2⟩

theorem exec_append {α ε : Type} (fn : α → Option ε) (s : ProcState α ε) (a b : List Action) :
    exec fn s (a ++ b) = exec fn (exec fn s a) b := by
  simp [exec, List.foldl_append]

theorem step_ret_some {α ε : Type} (fn : α → Option ε) (s : ProcState α ε) (a : Action)
    (r : Option (ProcError ε)) (h : s.ret = some r) : (step fn s a).ret = some r := by
  cases a <;> simp only [step] <;> repeat' split
  all_goals first | exact h | simp_all

theorem exec_ret_some {α ε : Type} (fn : α → Option ε) (sched : List Action) :
    ∀ (s : ProcState α ε) (r : Option (ProcError ε)), s.ret = some r →
      (exec fn s sched).ret = some r := by
  induction sched with
  | nil => intro s r h; exact h
  | cons a t ih => intro s r h; exact ih _ r (step_ret_some fn s a r h)

theorem step_decreases {α ε : Type} (fn : α → Option ε) (s : ProcState α ε) (a : Action) :
    step fn s a = s ∨ remainingWork (step fn s a) < remainingWork s := by
  cases a with
  | submit =>
    simp only [step]
    split
    · rename_i hg
      simp only [Bool.and_eq_true, decide_eq_true_eq] at hg
      right
      simp only [remainingWork, List.length_append, List.length_singleton]
      have := hg.1.2
      omega
    · exact Or.inl rfl
  | start i =>
    simp only [step]
    split
    · rename_i hi
      split
      · right
        have hlen := List.length_erase_of_mem hi
        have hpos : 0 < s.spawned.length := List.length_pos_of_mem hi
        simp only [remainingWork, List.length_append, List.length_singleton]
        omega
      · exact Or.inl rfl
    · exact Or.inl rfl
  | finish i =>
    simp only [step]
    split
    · rename_i hi
      right
      have hlen := List.length_erase_of_mem hi
      have hpos : 0 < s.running.length := List.length_pos_of_mem hi
      simp only [remainingWork]
      omega
    · exact Or.inl rfl
  | wait =>
    simp only [step]
    split
    · rename_i hg
      simp only [Bool.and_eq_true, Option.isNone_iff_eq_none] at hg
      right
      simp [remainingWork, hg.1.1.1]
    · exact Or.inl rfl

theorem step_progress {α ε : Type} (fn : α → Option ε) (s : ProcState α ε)
    (h : Inv fn s) (hl : s.limit ≠ 0) (hr : s.ret = none) :
    remainingWork (step fn s (nextAction s)) < remainingWork s := by
  rcases step_decreases fn s (nextAction s) with he | hlt
  · exfalso
    revert he
    cases hsp : s.spawned with
    | cons i t =>
      have hi : i ∈ s.spawned := by rw [hsp]; simp
      have hlt : i < s.items.length :=
        lt_of_lt_of_le ((h.mem_iff i).1 (by simp [hi])) h.next_le
      simp only [nextAction, hsp]
      simp only [step, hi, if_true, List.getElem?_eq_getElem hlt]
      intro he
      have := congrArg (fun st => st.running.length) he
      simp at this
    | nil =>
      cases hrun : s.running with
      | cons i t =>
        have hi : i ∈ s.running := by rw [hrun]; simp
        simp only [nextAction, hsp, hrun]
        simp only [step, hi, if_true]
        intro he
        have := congrArg (fun st => st.finished.length) he
        simp at this
      | nil =>
        simp only [nextAction, hsp, hrun]
        split
        · rename_i hn
          have hfree : slotFree s = true := by
            simp only [slotFree, hsp, hrun, List.length_nil, Bool.or_eq_true, decide_eq_true_eq]
            have := h.bound
            push_cast
            omega
          simp only [step, hr, Option.isNone_none, hn, decide_True, hfree, Bool.and_self, if_true]
          intro he
          have := congrArg (fun st => st.next) he
          simp at this
        · rename_i hn
          have hn' : s.next = s.items.length := le_antisymm h.next_le (not_lt.1 hn)
          simp only [step, hr, Option.isNone_none, hn', decide_True, hsp, hrun,
            List.isEmpty_nil, Bool.and_self, if_true]
          intro he
          have := congrArg (fun st => st.ret) he
          simp [hr] at this
  · exact hlt

theorem complete_returns {α ε : Type} (fn : α → Option ε) :
    ∀ (k : Nat) (s : ProcState α ε), Inv fn s → s.limit ≠ 0 → remainingWork s ≤ k →
      (exec fn s (complete fn k s)).ret ≠ none := by
  intro k
  induction k with
  | zero =>
    intro s _ _ hk
    cases hr : s.ret with
    | none => simp [remainingWork, hr] at hk
    | some r => simp [exec, complete, hr]
  | succ k ih =>
    intro s h hl hk
    cases hr : s.ret with
    | none =>
      have hp := step_progress fn s h hl hr
      have := ih (step fn s (nextAction s)) (inv_step fn s _ h)
        (by rw [(step_items fn s _).2]; exact hl) (by omega)
      simpa [exec, complete] using this
    | some r =>
      rw [exec_ret_some fn _ s r hr]
      simp

theorem indexLoop_eq {α : Type} (xs : List α) :
    (List.range xs.length).filterMap (fun i => xs[i]?) = xs := by
  induction xs with
  | nil => rfl
  | cons x t ih =>
    rw [List.length_cons, List.range_succ_eq_map, List.filterMap_cons]
    simp only [List.getElem?_cons_zero, List.filterMap_map]
    have e : ((fun i => (x :: t)[i]?) ∘ Nat.succ) = (fun i => t[i]?) := by
      funext i; simp
    rw [e, ih]

theorem mapIndex_of_mem {κ α : Type} [DecidableEq κ] :
    ∀ (es : List (κ × α)), (es.map Prod.fst).Nodup → ∀ p ∈ es, mapIndex es p.1 = some p.2 := by
  intro es
  induction es with
  | nil => intro _ p hp; simp at hp
  | cons e t ih =>
    intro hnd p hp
    simp only [List.map_cons, List.nodup_cons] at hnd
    rcases List.mem_cons.1 hp with rfl | hp'
    · simp [mapIndex, List.find?_cons]
    · have hne : e.1 ≠ p.1 := by
        intro he
        exact hnd.1 (he ▸ List.mem_map_of_mem Prod.fst hp')
      have := ih hnd.2 p hp'
      simpa [mapIndex, List.find?_cons, hne] using this

theorem mapLoop_eq {κ α : Type} [DecidableEq κ] (es : List (κ × α))
    (hnd : (es.map Prod.fst).Nodup) :
    (es.map Prod.fst).filterMap (fun key => mapIndex es key) = es.map Prod.snd := by
  rw [List.filterMap_map]
  have : ∀ p ∈ es, ((fun key => mapIndex es key) ∘ Prod.fst) p = some (Prod.snd p) := by
    intro p hp
    exact mapIndex_of_mem es hnd p hp
  rw [List.filterMap_congr this]
  exact List.filterMap_eq_map _ ▸ rfl

theorem collectItems_eq {κ α : Type} [DecidableEq κ] (c : Collection κ α)
    (hc : isCollectionKind c.kind = true) : collectItems c = .ok (elementsOf c) := by
  cases c with
  | slice xs => simp [collectItems, elementsOf, indexLoop_eq]
  | array xs => simp [collectItems, elementsOf, indexLoop_eq]
  | map es hnd => simp [collectItems, elementsOf, mapLoop_eq es hnd]
  | other k hk => simp [Collection.kind, hk] at hc

theorem process_eq_exec {κ α ε : Type} [DecidableEq κ] (asyncLevel : Int)
    (c : Collection κ α) (fn : α → Option ε) (sched : List Action)
    (hc : isCollectionKind c.kind = true) :
    process asyncLevel c fn sched =
      exec fn (initState (groupLimit asyncLevel) (elementsOf c)) sched := by
  simp [process, collectItems_eq c hc, exec]

theorem groupLimit_ne_zero (asyncLevel : Int) : groupLimit asyncLevel ≠ 0 := by
  unfold groupLimit
  split <;> omega

theorem returned_calls {α ε : Type} (fn : α → Option ε) (s : ProcState α ε) (h : Inv fn s)
    (hr : s.ret ≠ none) :
    (s.calls.map Prod.fst).Perm (List.range s.items.length) ∧
      (s.finished).Perm (List.range s.items.length) ∧
      (s.calls.map Prod.snd).Perm s.items := by
  obtain ⟨r, hr⟩ := Option.ne_none_iff_exists'.1 hr
  obtain ⟨hn, hsp, hrun, _⟩ := h.ret_done r hr
  have hfin : ∀ i, i ∈ s.finished ↔ i < s.items.length := by
    intro i
    have := h.mem_iff i
    rw [hsp, hrun, hn] at this
    simpa using this
  have hfnd : s.finished.Nodup := by
    have := h.nodup
    rw [hsp, hrun] at this
    simpa using this
  have hcalls : (s.calls.map Prod.fst).Perm (List.range s.items.length) := by
    rw [List.perm_ext_iff_of_nodup h.calls_nodup (List.nodup_range _)]
    intro i
    rw [h.calls_mem i, hrun, List.mem_range, ← hfin i]
    simp
  refine ⟨hcalls, ?_, ?_⟩
  · rw [List.perm_ext_iff_of_nodup hfnd (List.nodup_range _)]
    intro i
    rw [List.mem_range, hfin i]
  · have h1 := hcalls.filterMap (fun i => s.items[i]?)
    rw [indexLoop_eq, List.filterMap_map] at h1
    have h2 : ∀ p ∈ s.calls, ((fun i => s.items[i]?) ∘ Prod.fst) p = some (Prod.snd p) :=
      fun p hp => h.calls_val p hp
    rw [List.filterMap_congr h2] at h1
    have h3 : List.filterMap (fun p : Nat × α => some p.2) s.calls = s.calls.map Prod.snd :=
      List.filterMap_eq_map _ ▸ rfl
    rw [h3] at h1
    exact h1

theorem unbounded_all_running {α ε : Type} (fn : α → Option ε) (limit : Int) (items : List α)
    (hl : limit < 0) :
    ∀ i ≤ items.length, ∃ sched, ∃ s, s = exec fn (initState limit items) sched ∧
      s.next = i ∧ s.spawned = [] ∧ s.running = List.range i ∧ s.ret = none := by
  intro i
  induction i with
  | zero => intro _; exact ⟨[], _, rfl, rfl, rfl, rfl, rfl⟩
  | succ i ih =>
    intro hi
    obtain ⟨sched, s, hs, hn, hsp, hrun, hret⟩ := ih (by omega)
    have hitems : s.items = items := by rw [hs]; exact (exec_items fn sched _).1
    have hlimit : s.limit = limit := by rw [hs]; exact (exec_items fn sched _).2
    have hlt : i < s.items.length := by rw [hitems]; omega
    refine ⟨sched ++ [.submit, .start i], _, rfl, ?_⟩
    rw [exec_append, ← hs]
    have hfree : slotFree s = true := by
      simp [slotFree, hlimit, hl]
    have hlt' : s.next < s.items.length := by rw [hn]; exact hlt
    have e1 : step fn s .submit = { s with spawned := [i], next := i + 1 } := by
      simp only [step, hret, Option.isNone_none, hlt', decide_True, hfree, Bool.and_self,
        if_true, hsp, hn, List.nil_append]
      simp [hlt]
    simp only [exec, List.foldl_cons, List.foldl_nil, e1]
    simp [step, List.getElem?_eq_getElem hlt, hrun, hret, List.range_succ]

theorem inv_process {κ α ε : Type} [DecidableEq κ] (asyncLevel : Int)
    (c : Collection κ α) (fn : α → Option ε) (sched : List Action)
    (hc : isCollectionKind c.kind = true) :
    Inv fn (process asyncLevel c fn sched) ∧
      (process asyncLevel c fn sched).items = elementsOf c ∧
      (process asyncLevel c fn sched).limit = groupLimit asyncLevel := by
  rw [process_eq_exec asyncLevel c fn sched hc]
  exact ⟨inv_exec fn sched _ (inv_init fn _ _), (exec_items fn sched _).1,
    (exec_items fn sched _).2⟩

theorem process_can_return {κ α ε : Type} [DecidableEq κ] (asyncLevel : Int)
    (c : Collection κ α) (fn : α → Option ε) (sched : List Action)
    (hc : isCollectionKind c.kind = true) :
    ∃ rest, (process asyncLevel c fn (sched ++ rest)).ret ≠ none := by
  obtain ⟨hinv, _, hlim⟩ := inv_process asyncLevel c fn sched hc
  refine ⟨complete fn (remainingWork (process asyncLevel c fn sched))
    (process asyncLevel c fn sched), ?_⟩
  have := complete_returns fn _ _ hinv (by rw [hlim]; exact groupLimit_ne_zero _) le_rfl
  rw [process_eq_exec asyncLevel c fn _ hc, exec_append,
    ← process_eq_exec asyncLevel c fn sched hc]
  exact this

theorem returned_result {κ α ε : Type} [DecidableEq κ] (asyncLevel : Int)
    (c : Collection κ α) (fn : α → Option ε) (sched : List Action)
    (hc : isCollectionKind c.kind = true)
    (hr : (process asyncLevel c fn sched).ret ≠ none) :
    ((process asyncLevel c fn sched).ret = some none ↔
      ∀ p ∈ (process asyncLevel c fn sched).calls, fn p.2 = none) ∧
    ((process asyncLevel c fn sched).ret = some none ↔ ∀ v ∈ elementsOf c, fn v = none) ∧
    ((∃ v ∈ elementsOf c, fn v ≠ none) →
      ∃ e, (process asyncLevel c fn sched).ret = some (some (ProcError.failed e)) ∧
        (∃ p ∈ (process asyncLevel c fn sched).calls, fn p.2 = some e)) ∧
    (process asyncLevel c fn sched).ret =
      some (((process asyncLevel c fn sched).finished.findSome?
        (fun i => ((elementsOf c)[i]?).bind fn)).map ProcError.failed) ∧
    ((process asyncLevel c fn sched).calls.map Prod.snd).Perm (elementsOf c) := by
  obtain ⟨hinv, hitems, _⟩ := inv_process asyncLevel c fn sched hc
  obtain ⟨hcalls, hfin, hsnd⟩ := returned_calls fn _ hinv hr
  rw [hitems] at hcalls hfin hsnd
  obtain ⟨r, hret⟩ := Option.ne_none_iff_exists'.1 hr
  have hr4 := (hinv.ret_done r hret).2.2.2
  have herr := hinv.err_eq
  rw [hitems] at herr
  have hret' : (process asyncLevel c fn sched).ret =
      some (((process asyncLevel c fn sched).finished.findSome?
        (fun i => ((elementsOf c)[i]?).bind fn)).map ProcError.failed) := by
    rw [hret, hr4, herr]
  have hall : (process asyncLevel c fn sched).ret = some none ↔
      ∀ v ∈ elementsOf c, fn v = none := by
    rw [hret']
    simp only [Option.some.injEq, Option.map_eq_none', List.findSome?_eq_none_iff]
    constructor
    · intro h v hv
      obtain ⟨i, hi, rfl⟩ := List.getElem_of_mem hv
      have := h i (hfin.mem_iff.2 (List.mem_range.2 hi))
      simpa [List.getElem?_eq_getElem hi] using this
    · intro h i _
      cases hv : (elementsOf c)[i]? with
      | none => rfl
      | some v => exact h v (List.getElem?_mem hv)
  have hmem : ∀ v, v ∈ elementsOf c ↔
      ∃ p ∈ (process asyncLevel c fn sched).calls, p.2 = v := by
    intro v
    rw [← hsnd.mem_iff]
    simp
  refine ⟨?_, hall, ?_, hret', hsnd⟩
  · rw [hall]
    constructor
    · intro h p hp
      exact h p.2 ((hmem p.2).2 ⟨p, hp, rfl⟩)
    · intro h v hv
      obtain ⟨p, hp, rfl⟩ := (hmem v).1 hv
      exact h p hp
  · rintro ⟨v, hv, hne⟩
    cases hf : (process asyncLevel c fn sched).finished.findSome?
        (fun i => ((elementsOf c)[i]?).bind fn) with
    | none =>
      exfalso
      rw [hf] at hret'
      exact hne (hall.1 hret' v hv)
    | some e =>
      refine ⟨e, by rw [hret', hf]; rfl, ?_⟩
      obtain ⟨i, _, hi⟩ := List.exists_of_findSome?_eq_some hf
      cases hv' : (elementsOf c)[i]? with
      | none => simp [hv'] at hi
      | some w =>
        obtain ⟨p, hp, hpw⟩ := (hmem w).1 (List.getElem?_mem hv')
        refine ⟨p, hp, ?_⟩
        rw [hpw]
        simpa [hv'] using hi

/-! ## Lemmas: hashing and canonical text -/

theorem round_length (st : List Nat) (kw : Nat × Nat) : (round st kw).length = st.length := by
  unfold round
  split
  · rfl
  · rfl

theorem foldl_round_length (kws : List (Nat × Nat)) :
    ∀ st : List Nat, (kws.foldl round st).length = st.length := by
  induction kws with
  | nil => intro st; rfl
  | cons kw t ih => intro st; rw [List.foldl_cons, ih, round_length]

theorem compress_length (h chunk : List Nat) : (compress h chunk).length = h.length := by
  unfold compress
  rw [List.length_zipWith, foldl_round_length]
  simp

theorem foldl_compress_length (cs : List (List Nat)) :
    ∀ h : List Nat, (cs.foldl compress h).length = h.length := by
  induction cs with
  | nil => intro h; rfl
  | cons c t ih => intro h; rw [List.foldl_cons, ih, compress_length]

theorem flatMap_length_const {α β : Type} (f : α → List β) (k : Nat)
    (hf : ∀ a, (f a).length = k) : ∀ l : List α, (l.flatMap f).length = k * l.length := by
  intro l
  induction l with
  | nil => simp
  | cons a t ih => simp [List.flatMap_cons, hf, ih, Nat.mul_succ]; omega

theorem sum256_length (msg : List Nat) : (sum256 msg).length = 32 := by
  unfold sum256
  rw [flatMap_length_const (bigEndian 4) 4 (fun a => by simp [bigEndian]),
    foldl_compress_length]
  rfl

theorem sum256_lt (msg : List Nat) : ∀ b ∈ sum256 msg, b < 256 := by
  intro b hb
  unfold sum256 at hb
  obtain ⟨w, _, hw⟩ := List.mem_flatMap.1 hb
  unfold bigEndian at hw
  obtain ⟨i, _, rfl⟩ := List.mem_map.1 hw
  exact Nat.mod_lt _ (by norm_num)

theorem hash_length (s : String) : (hash s).length = 64 := by
  unfold hash encodeToString hexChars
  rw [String.length, flatMap_length_const _ 2 (fun a => by simp), sum256_length]

theorem hexDigit_inj : ∀ d, d < 16 → ∀ e, e < 16 → hexDigit d = hexDigit e → d = e := by
  decide

theorem hexChars_inj : ∀ (l₁ l₂ : List Nat), (∀ b ∈ l₁, b < 256) → (∀ b ∈ l₂, b < 256) →
    hexChars l₁ = hexChars l₂ → l₁ = l₂ := by
  intro l₁
  induction l₁ with
  | nil =>
    intro l₂ _ _ h
    cases l₂ with
    | nil => rfl
    | cons b t => simp [hexChars] at h
  | cons a s ih =>
    intro l₂ h1 h2 h
    cases l₂ with
    | nil => simp [hexChars] at h
    | cons b t =>
      simp only [hexChars, List.flatMap_cons, List.cons_append, List.nil_append,
        List.cons.injEq] at h
      obtain ⟨e1, e2, e3⟩ := h
      have ha := h1 a (by simp)
      have hb := h2 b (by simp)
      have d1 := hexDigit_inj _ (by omega) _ (by omega) e1
      have d2 := hexDigit_inj _ (Nat.mod_lt _ (by norm_num)) _ (Nat.mod_lt _ (by norm_num)) e2
      have hab : a = b := by omega
      rw [hab, ih t (fun d hd => h1 d (by simp [hd])) (fun d hd => h2 d (by simp [hd])) e3]

theorem encodeToString_inj (l₁ l₂ : List Nat) (h1 : ∀ b ∈ l₁, b < 256) (h2 : ∀ b ∈ l₂, b < 256)
    (h : encodeToString l₁ = encodeToString l₂) : l₁ = l₂ :=
  hexChars_inj l₁ l₂ h1 h2 (congrArg String.data h)

theorem hash_eq_iff (s t : String) :
    hash s = hash t ↔ sum256 (stringBytes s) = sum256 (stringBytes t) := by
  constructor
  · intro h
    exact encodeToString_inj _ _ (sum256_lt _) (sum256_lt _) h
  · intro h
    unfold hash
    rw [h]

theorem digitsRev_lt : ∀ (fuel n : Nat), ∀ d ∈ digitsRev fuel n, d < 10 := by
  intro fuel
  induction fuel with
  | zero => intro n d hd; simp [digitsRev] at hd
  | succ f ih =>
    intro n d hd
    simp only [digitsRev] at hd
    split at hd
    · simp at hd; omega
    · rcases List.mem_cons.1 hd with h | h
      · omega
      · exact ih _ d h

theorem ofDigits_digitsRev : ∀ (fuel n : Nat), n < fuel → ofDigits (digitsRev fuel n) = n := by
  intro fuel
  induction fuel with
  | zero => intro n h; omega
  | succ f ih =>
    intro n h
    simp only [digitsRev]
    split
    · simp [ofDigits]
    · simp only [ofDigits]
      rw [ih (n / 10) (by omega)]
      omega

theorem digitChar_inj : ∀ d, d < 10 → ∀ e, e < 10 → digitChar d = digitChar e → d = e := by
  decide

theorem digitChar_ne_minus : ∀ d, d < 10 → digitChar d ≠ '-' := by
  decide

theorem map_digitChar_inj : ∀ (l₁ l₂ : List Nat), (∀ d ∈ l₁, d < 10) → (∀ d ∈ l₂, d < 10) →
    l₁.map digitChar = l₂.map digitChar → l₁ = l₂ := by
  intro l₁
  induction l₁ with
  | nil => intro l₂ _ _ h; cases l₂ with
    | nil => rfl
    | cons b t => simp at h
  | cons a s ih =>
    intro l₂ h1 h2 h
    cases l₂ with
    | nil => simp at h
    | cons b t =>
      simp only [List.map_cons, List.cons.injEq] at h
      have hab := digitChar_inj a (h1 a (by simp)) b (h2 b (by simp)) h.1
      rw [hab, ih t (fun d hd => h1 d (by simp [hd])) (fun d hd => h2 d (by simp [hd])) h.2]

theorem formatNat_inj (n m : Nat) (h : formatNat n = formatNat m) : n = m := by
  unfold formatNat at h
  have h1 := map_digitChar_inj _ _
    (fun d hd => digitsRev_lt (n + 1) n d (List.mem_reverse.1 hd))
    (fun d hd => digitsRev_lt (m + 1) m d (List.mem_reverse.1 hd)) h
  have h2 := List.reverse_injective h1
  have := congrArg ofDigits h2
  rwa [ofDigits_digitsRev _ _ (Nat.lt_succ_self n), ofDigits_digitsRev _ _ (Nat.lt_succ_self m)]
    at this

theorem formatNat_no_minus (n : Nat) : ∀ c ∈ formatNat n, c ≠ '-' := by
  intro c hc
  unfold formatNat at hc
  obtain ⟨d, hd, rfl⟩ := List.mem_map.1 hc
  exact digitChar_ne_minus d (digitsRev_lt _ _ d (List.mem_reverse.1 hd))

theorem formatInt_inj (n m : Int) (h : formatInt n = formatInt m) : n = m := by
  unfold formatInt at h
  split at h <;> split at h
  · have := formatNat_inj _ _ (List.cons.inj h).2
    omega
  · exfalso
    have : '-' ∈ formatNat m.natAbs := by rw [← h]; simp
    exact formatNat_no_minus _ _ this rfl
  · exfalso
    have : '-' ∈ formatNat n.natAbs := by rw [h]; simp
    exact formatNat_no_minus _ _ this rfl
  · have := formatNat_inj _ _ h
    omega

theorem printItems_eq (xs : List Value) : printItems xs = xs.map printValue := by
  induction xs with
  | nil => simp [printItems]
  | cons v t ih => simp [printItems, ih]

theorem printEntries_eq (es : List (String × Value)) :
    printEntries es = es.map (fun p => (p.1, printValue p.2)) := by
  induction es with
  | nil => simp [printEntries]
  | cons e t ih => obtain ⟨k, v⟩ := e; simp [printEntries, ih]

theorem strLe_total : ∀ (a b : List Char), strLe a b = true ∨ strLe b a = true := by
  intro a
  induction a with
  | nil => intro b; left; simp [strLe]
  | cons x s ih =>
    intro b
    cases b with
    | nil => right; simp [strLe]
    | cons y t =>
      simp only [strLe, Bool.or_eq_true, Bool.and_eq_true, decide_eq_true_eq]
      rcases lt_trichotomy x y with h | h | h
      · exact Or.inl (Or.inl h)
      · rcases ih t with h2 | h2
        · exact Or.inl (Or.inr ⟨h, h2⟩)
        · exact Or.inr (Or.inr ⟨h.symm, h2⟩)
      · exact Or.inr (Or.inl h)

theorem strLe_antisymm : ∀ (a b : List Char), strLe a b = true → strLe b a = true → a = b := by
  intro a
  induction a with
  | nil => intro b h1 h2; cases b with
    | nil => rfl
    | cons y t => simp [strLe] at h2
  | cons x s ih =>
    intro b h1 h2
    cases b with
    | nil => simp [strLe] at h1
    | cons y t =>
      simp only [strLe, Bool.or_eq_true, Bool.and_eq_true, decide_eq_true_eq] at h1 h2
      rcases h1 with h1 | ⟨rfl, h1⟩
      · rcases h2 with h2 | ⟨rfl, _⟩
        · exact absurd h1 (lt_asymm h2)
        · exact absurd h1 (lt_irrefl _)
      · rcases h2 with h2 | ⟨_, h2⟩
        · exact absurd h2 (lt_irrefl _)
        · rw [ih t h1 h2]

theorem strLe_trans : ∀ (a b c : List Char), strLe a b = true → strLe b c = true →
    strLe a c = true := by
  intro a
  induction a with
  | nil => intro b c _ _; simp [strLe]
  | cons x s ih =>
    intro b c h1 h2
    cases b with
    | nil => simp [strLe] at h1
    | cons y t =>
      cases c with
      | nil => simp [strLe] at h2
      | cons z u =>
        simp only [strLe, Bool.or_eq_true, Bool.and_eq_true, decide_eq_true_eq] at h1 h2 ⊢
        rcases h1 with h1 | ⟨rfl, h1⟩
        · rcases h2 with h2 | ⟨rfl, _⟩
          · exact Or.inl (lt_trans h1 h2)
          · exact Or.inl h1
        · rcases h2 with h2 | ⟨rfl, h2⟩
          · exact Or.inl h2
          · exact Or.inr ⟨rfl, ih t u h1 h2⟩

theorem insertEntry_comm_of_le (a b : String × List Char)
    (hab : strLe a.1.data b.1.data = true) (hba : strLe b.1.data a.1.data = false) :
    ∀ l, insertEntry a (insertEntry b l) = insertEntry b (insertEntry a l) := by
  intro l
  induction l with
  | nil => simp [insertEntry, hab, hba]
  | cons c t ih =>
    by_cases hbc : strLe b.1.data c.1.data = true
    · have hac := strLe_trans _ _ _ hab hbc
      simp [insertEntry, hab, hba, hbc, hac]
    · have hbc' : strLe b.1.data c.1.data = false := by simpa using hbc
      by_cases hac : strLe a.1.data c.1.data = true
      · simp [insertEntry, hba, hbc', hac]
      · have hac' : strLe a.1.data c.1.data = false := by simpa using hac
        simp [insertEntry, hbc', hac', ih]

theorem insertEntry_comm (a b : String × List Char) (h : a.1 ≠ b.1) (l : List (String × List Char)) :
    insertEntry a (insertEntry b l) = insertEntry b (insertEntry a l) := by
  have hne : a.1.data ≠ b.1.data := fun he => h (String.ext he)
  by_cases hab : strLe a.1.data b.1.data = true
  · have hba : strLe b.1.data a.1.data = false := by
      by_contra hc
      exact hne (strLe_antisymm _ _ hab (by simpa using hc))
    exact insertEntry_comm_of_le a b hab hba l
  · have hba : strLe b.1.data a.1.data = true := by
      rcases strLe_total a.1.data b.1.data with h1 | h1
      · exact absurd h1 hab
      · exact h1
    exact (insertEntry_comm_of_le b a hba (by simpa using hab) l).symm

theorem sortEntries_eq_foldr (l : List (String × List Char)) :
    sortEntries l = l.foldr insertEntry [] := by
  induction l with
  | nil => rfl
  | cons e t ih => simp [sortEntries, ih]

theorem sortEntries_perm {l₁ l₂ : List (String × List Char)} (p : l₁.Perm l₂)
    (hnd : (l₁.map Prod.fst).Nodup) : sortEntries l₁ = sortEntries l₂ := by
  rw [sortEntries_eq_foldr, sortEntries_eq_foldr]
  refine p.foldr_eq' ?_ []
  intro x hx y hy z
  by_cases hxy : x = y
  · rw [hxy]
  · refine insertEntry_comm y x ?_ z
    intro hk
    exact hxy (List.inj_on_of_nodup_map hnd hx hy hk.symm)

theorem wellFormedItems_iff (xs : List Value) :
    wellFormedItems xs = true ↔ ∀ v ∈ xs, wellFormed v = true := by
  induction xs with
  | nil => simp [wellFormedItems]
  | cons v t ih => simp [wellFormedItems, ih]

theorem wellFormedEntries_iff (es : List (String × Value)) :
    wellFormedEntries es = true ↔ ∀ p ∈ es, wellFormed p.2 = true := by
  induction es with
  | nil => simp [wellFormedEntries]
  | cons e t ih => obtain ⟨k, v⟩ := e; simp [wellFormedEntries, ih]

theorem wellFormed_map (es : List (String × Value)) :
    wellFormed (.map es) = true ↔
      (es.map Prod.fst).Nodup ∧ ∀ p ∈ es, wellFormed p.2 = true := by
  simp [wellFormed, wellFormedEntries_iff]

theorem wellFormed_seq (xs : List Value) :
    wellFormed (.seq xs) = true ↔ ∀ v ∈ xs, wellFormed v = true := by
  simp [wellFormed, wellFormedItems_iff]

theorem printValue_map (es : List (String × Value)) :
    printValue (.map es) = "map[".data ++
      joinSpace ((sortEntries (es.map (fun p => (p.1, printValue p.2)))).map printEntry) ++ [']'] := by
  rw [printValue, printEntries_eq]

theorem printValue_seq (xs : List Value) :
    printValue (.seq xs) = '[' :: joinSpace (xs.map printValue) ++ [']'] := by
  rw [printValue, printItems_eq]

theorem sameContent_print {a b : Value} (h : SameContent a b) :
    wellFormed a = true → wellFormed b = true ∧ printValue a = printValue b := by
  induction h with
  | refl v => intro hw; exact ⟨hw, rfl⟩
  | trans _ _ ih1 ih2 =>
    intro hw
    obtain ⟨hb, e1⟩ := ih1 hw
    obtain ⟨hc, e2⟩ := ih2 hb
    exact ⟨hc, e1.trans e2⟩
  | @permute es fs p =>
    intro hw
    rw [wellFormed_map] at hw ⊢
    refine ⟨⟨(p.map Prod.fst).nodup_iff.1 hw.1, fun q hq => hw.2 q (p.mem_iff.2 hq)⟩, ?_⟩
    rw [printValue_map, printValue_map]
    have hnd : ((es.map (fun p => (p.1, printValue p.2))).map Prod.fst).Nodup := by
      rw [List.map_map]
      exact hw.1
    rw [sortEntries_perm (p.map _) hnd]
  | @inField pre key post v w _ ih =>
    intro hw
    rw [wellFormed_map] at hw ⊢
    have hv : wellFormed v = true := hw.2 (key, v) (by simp)
    obtain ⟨hwf, he⟩ := ih hv
    refine ⟨⟨by simpa using hw.1, ?_⟩, ?_⟩
    · intro q hq
      rcases List.mem_append.1 hq with h1 | h1
      · exact hw.2 q (List.mem_append_left _ h1)
      · rcases List.mem_cons.1 h1 with h2 | h2
        · subst h2; exact hwf
        · exact hw.2 q (List.mem_append_right _ (List.mem_cons_of_mem _ h2))
    · rw [printValue_map, printValue_map]
      simp [he]
  | @inItem pre post v w _ ih =>
    intro hw
    rw [wellFormed_seq] at hw ⊢
    have hv : wellFormed v = true := hw v (by simp)
    obtain ⟨hwf, he⟩ := ih hv
    refine ⟨?_, ?_⟩
    · intro q hq
      rcases List.mem_append.1 hq with h1 | h1
      · exact hw q (List.mem_append_left _ h1)
      · rcases List.mem_cons.1 h1 with h2 | h2
        · subst h2; exact hwf
        · exact hw q (List.mem_append_right _ (List.mem_cons_of_mem _ h2))
    · rw [printValue_seq, printValue_seq]
      simp [he]

theorem insertEntry_self_hole (key : String) : ∀ (l : List (String × List Char)),
    ∃ L R, ∀ x, insertEntry (key, x) l = L ++ (key, x) :: R := by
  intro l
  induction l with
  | nil => exact ⟨[], [], fun x => rfl⟩
  | cons b t ih =>
    obtain ⟨L, R, h⟩ := ih
    by_cases hb : strLe key.data b.1.data = true
    · exact ⟨[], b :: t, fun x => by simp [insertEntry, hb]⟩
    · exact ⟨b :: L, R, fun x => by simp [insertEntry, hb, h x]⟩

theorem insertEntry_hole (e : String × List Char) (key : String) (R : List (String × List Char)) :
    ∀ (L : List (String × List Char)),
    ∃ L' R', ∀ x, insertEntry e (L ++ (key, x) :: R) = L' ++ (key, x) :: R' := by
  intro L
  induction L with
  | nil =>
    by_cases hb : strLe e.1.data key.data = true
    · exact ⟨[e], R, fun x => by simp [insertEntry, hb]⟩
    · exact ⟨[], insertEntry e R, fun x => by simp [insertEntry, hb]⟩
  | cons b t ih =>
    obtain ⟨L', R', h⟩ := ih
    by_cases hb : strLe e.1.data b.1.data = true
    · exact ⟨e :: b :: t, R, fun x => by simp [insertEntry, hb]⟩
    · exact ⟨b :: L', R', fun x => by simp [insertEntry, hb, h x]⟩

theorem sortEntries_hole (key : String) (post : List (String × List Char)) :
    ∀ (pre : List (String × List Char)),
    ∃ L R, ∀ x, sortEntries (pre ++ (key, x) :: post) = L ++ (key, x) :: R := by
  intro pre
  induction pre with
  | nil =>
    obtain ⟨L, R, h⟩ := insertEntry_self_hole key (sortEntries post)
    exact ⟨L, R, fun x => by simp [sortEntries, h x]⟩
  | cons p t ih =>
    obtain ⟨L, R, h⟩ := ih
    obtain ⟨L', R', h'⟩ := insertEntry_hole p key R L
    exact ⟨L', R', fun x => by simp [sortEntries, h x, h' x]⟩

theorem joinSpace_hole (R : List (List Char)) : ∀ (L : List (List Char)),
    ∃ A B, ∀ x, joinSpace (L ++ x :: R) = A ++ x ++ B := by
  intro L
  induction L with
  | nil =>
    cases R with
    | nil => exact ⟨[], [], fun x => by simp [joinSpace]⟩
    | cons y t => exact ⟨[], ' ' :: joinSpace (y :: t), fun x => by simp [joinSpace]⟩
  | cons a t ih =>
    obtain ⟨A, B, h⟩ := ih
    refine ⟨a ++ ' ' :: A, B, fun x => ?_⟩
    cases t with
    | nil => simp [joinSpace, ← h x]
    | cons b u => simp [joinSpace, ← h x]

theorem printValue_hole (ctx : Context) :
    ∃ A B, ∀ v, printValue (ctx.fill v) = A ++ printValue v ++ B := by
  induction ctx with
  | here => exact ⟨[], [], fun v => by simp [Context.fill]⟩
  | field pre key inner post ih =>
    obtain ⟨A, B, h⟩ := ih
    obtain ⟨L, R, hs⟩ := sortEntries_hole key (post.map (fun p => (p.1, printValue p.2)))
      (pre.map (fun p => (p.1, printValue p.2)))
    obtain ⟨A', B', hj⟩ := joinSpace_hole (R.map printEntry) (L.map printEntry)
    refine ⟨"map[".data ++ A' ++ key.data ++ ':' :: A, B ++ B' ++ [']'], fun v => ?_⟩
    have e1 := hs (printValue (inner.fill v))
    have e2 := hj (printEntry (key, printValue (inner.fill v)))
    simp only [Context.fill, printValue_map, List.map_append, List.map_cons, e1, e2]
    simp [printEntry, h v]
  | item pre inner post ih =>
    obtain ⟨A, B, h⟩ := ih
    obtain ⟨A', B', hj⟩ := joinSpace_hole (post.map printValue) (pre.map printValue)
    refine ⟨'[' :: A' ++ A, B ++ B' ++ [']'], fun v => ?_⟩
    have e2 := hj (printValue (inner.fill v))
    simp only [Context.fill, printValue_seq, List.map_append, List.map_cons, e2]
    simp [h v]

theorem printValue_fill_eq_iff (ctx : Context) (v w : Value) :
    printValue (ctx.fill v) = printValue (ctx.fill w) ↔ printValue v = printValue w := by
  obtain ⟨A, B, h⟩ := printValue_hole ctx
  rw [h v, h w]
  constructor
  · intro he
    simpa using he
  · intro he; rw [he]

theorem checkLockFileMatch_iff (vendirDirs lockFileDirs : List Directory) :
    checkLockFileMatch vendirDirs lockFileDirs = true ↔
      ∀ p ∈ vendirDirs.map Directory.Path, p ∈ lockFileDirs.map Directory.Path := by
  simp only [checkLockFileMatch, checkPathMatch, List.all_eq_true, List.any_eq_true,
    decide_eq_true_eq, List.mem_map]
  constructor
  · rintro h p ⟨d, hd, rfl⟩
    obtain ⟨e, he, hp⟩ := h d hd
    exact ⟨e, he, hp⟩
  · intro h d hd
    obtain ⟨e, he, hp⟩ := h d.Path ⟨d, hd, rfl⟩
    exact ⟨e, he, hp⟩

theorem checkLockFileMatch_congr (v v' l l' : List Directory)
    (hv : ∀ p, p ∈ v.map Directory.Path ↔ p ∈ v'.map Directory.Path)
    (hl : ∀ p, p ∈ l.map Directory.Path ↔ p ∈ l'.map Directory.Path) :
    checkLockFileMatch v l = checkLockFileMatch v' l' := by
  rw [Bool.eq_iff_iff, checkLockFileMatch_iff, checkLockFileMatch_iff]
  constructor
  · intro h p hp; exact (hl p).1 (h p ((hv p).2 hp))
  · intro h p hp; exact (hl p).2 (h p ((hv p).1 hp))

theorem insertEntry_perm_cons (e : String × List Char) :
    ∀ l : List (String × List Char), (insertEntry e l).Perm (e :: l) := by
  intro l
  induction l with
  | nil => exact List.Perm.refl _
  | cons b t ih =>
    simp only [insertEntry]
    split
    · exact List.Perm.refl _
    · exact (List.Perm.cons b ih).trans (List.Perm.swap e b t)

theorem sortEntries_perm_self :
    ∀ l : List (String × List Char), (sortEntries l).Perm l := by
  intro l
  induction l with
  | nil => exact List.Perm.refl _
  | cons e t ih =>
    simp only [sortEntries]
    exact (insertEntry_perm_cons e _).trans (List.Perm.cons e ih)

theorem joinSpace_length : ∀ l : List (List Char),
    (joinSpace l).length = (l.map (fun x => x.length + 1)).sum - 1 := by
  intro l
  induction l with
  | nil => rfl
  | cons x t ih =>
    cases t with
    | nil => simp [joinSpace]
    | cons y u =>
      simp only [joinSpace, List.length_append, List.length_cons, ih, List.map_cons,
        List.sum_cons]
      omega

theorem printValue_map_length (es : List (String × Value)) :
    (printValue (Value.map es)).length =
      5 + ((es.map (fun p => p.1.data.length + 1 + (printValue p.2).length + 1)).sum - 1) := by
  rw [printValue_map]
  have hperm := ((sortEntries_perm_self (es.map (fun p => (p.1, printValue p.2)))).map
    printEntry).map (fun x => x.length + 1)
  have h1 := joinSpace_length
    ((sortEntries (es.map (fun p => (p.1, printValue p.2)))).map printEntry)
  have h2 : (((es.map (fun p => (p.1, printValue p.2))).map printEntry).map
      (fun x => x.length + 1)).sum =
      (es.map (fun p => p.1.data.length + 1 + (printValue p.2).length + 1)).sum := by
    rw [List.map_map, List.map_map]
    congr 1
    apply List.map_congr_left
    intro p _
    simp only [Function.comp, printEntry, List.length_append, List.length_cons]
    omega
  rw [List.length_append, List.length_append, h1, hperm.sum_eq, h2]
  have h4 : "map[".data.length = 4 := rfl
  rw [h4, List.length_singleton]
  omega

theorem printValue_field_added (before after : List (String × Value)) (k : String)
    (u : Value) :
    printValue (Value.map (before ++ (k, u) :: after)) ≠
      printValue (Value.map (before ++ after)) := by
  intro h
  have hl := congrArg List.length h
  rw [printValue_map_length, printValue_map_length] at hl
  simp only [List.map_append, List.map_cons, List.sum_append, List.sum_cons] at hl
  omega

theorem hexDigit_mem : ∀ d, d < 16 → hexDigit d ∈ "0123456789abcdef".data := by
  decide

theorem hash_hex (s : String) : ∀ c ∈ (hash s).data, c ∈ "0123456789abcdef".data := by
  intro c hc
  unfold hash encodeToString hexChars at hc
  obtain ⟨b, hb, hcb⟩ := List.mem_flatMap.1 hc
  have hlt := sum256_lt _ b hb
  simp only [List.mem_cons, List.mem_singleton, List.not_mem_nil, or_false] at hcb
  rcases hcb with rfl | rfl
  · exact hexDigit_mem _ (by omega)
  · exact hexDigit_mem _ (Nat.mod_lt _ (by norm_num))

/-! ## Claims -/

/-- C1: for a slice, array or map, every run of process invokes fn at most once per item and
always with that item's value; when process has returned there is exactly one invocation for
each element (for a map, one per key with that key's value); this holds for every asyncLevel
and every fn, failing or not, and every run can be continued until process returns. -/
theorem process_invokes_each_item_once {κ α ε : Type} [DecidableEq κ] (asyncLevel : Int)
    (c : Collection κ α) (fn : α → Option ε) (sched : List Action)
    (hc : isCollectionKind c.kind = true) :
    ((process asyncLevel c fn sched).calls.map Prod.fst).Nodup ∧
    (∀ p ∈ (process asyncLevel c fn sched).calls, (elementsOf c)[p.1]? = some p.2) ∧
    (∀ es hnd, c = Collection.map es hnd →
      ∀ p ∈ (process asyncLevel c fn sched).calls,
        ∃ key, es[p.1]? = some (key, p.2) ∧ mapIndex es key = some p.2) ∧
    ((process asyncLevel c fn sched).ret ≠ none →
      ((process asyncLevel c fn sched).calls.map Prod.fst).Perm
          (List.range (elementsOf c).length) ∧
        ((process asyncLevel c fn sched).calls.map Prod.snd).Perm (elementsOf c)) ∧
    (∃ rest, (process asyncLevel c fn (sched ++ rest)).ret ≠ none) ∧
    (∀ a, step fn (process asyncLevel c fn sched) a = process asyncLevel c fn sched ∨
      remainingWork (step fn (process asyncLevel c fn sched) a) <
        remainingWork (process asyncLevel c fn sched)) := by
  obtain ⟨hinv, hitems, _⟩ := inv_process asyncLevel c fn sched hc
  have hval : ∀ p ∈ (process asyncLevel c fn sched).calls, (elementsOf c)[p.1]? = some p.2 := by
    intro p hp
    rw [← hitems]
    exact hinv.calls_val p hp
  refine ⟨hinv.calls_nodup, hval, ?_, ?_, process_can_return asyncLevel c fn sched hc,
    fun a => step_decreases fn _ a⟩
  · intro es hnd hces p hp
    have h1 := hval p hp
    subst hces
    simp only [elementsOf, List.getElem?_map, Option.map_eq_some'] at h1
    obtain ⟨e, he, he2⟩ := h1
    refine ⟨e.1, ?_, ?_⟩
    · rw [he, ← he2]
    · rw [← he2]
      exact mapIndex_of_mem es hnd e (List.getElem?_mem he)
  · intro hr
    have := returned_calls fn _ hinv hr
    rw [hitems] at this
    exact ⟨this.1, this.2.2⟩

/-- C2: for a slice, array or map, every run of process can be continued until it returns,
and when it has returned the result is nil exactly when every invocation of fn returned nil;
otherwise it is a non-nil error, namely the error of the first failing invocation in completion
order, which is an error some invocation of fn returned, and fn has still been invoked for all
items. -/
theorem process_returns_first_error {κ α ε : Type} [DecidableEq κ] (asyncLevel : Int)
    (c : Collection κ α) (fn : α → Option ε) (sched : List Action)
    (hc : isCollectionKind c.kind = true) :
    (∃ rest, (process asyncLevel c fn (sched ++ rest)).ret ≠ none) ∧
    ((process asyncLevel c fn sched).ret ≠ none →
      ((process asyncLevel c fn sched).ret = some none ↔
        ∀ p ∈ (process asyncLevel c fn sched).calls, fn p.2 = none) ∧
      ((process asyncLevel c fn sched).ret = some none ↔ ∀ v ∈ elementsOf c, fn v = none) ∧
      ((∃ v ∈ elementsOf c, fn v ≠ none) →
        ∃ e, (process asyncLevel c fn sched).ret = some (some (ProcError.failed e)) ∧
          (∃ p ∈ (process asyncLevel c fn sched).calls, fn p.2 = some e)) ∧
      (process asyncLevel c fn sched).ret =
        some (((process asyncLevel c fn sched).finished.findSome?
          (fun i => ((elementsOf c)[i]?).bind fn)).map ProcError.failed) ∧
      ((process asyncLevel c fn sched).calls.map Prod.snd).Perm (elementsOf c)) :=
  ⟨process_can_return asyncLevel c fn sched hc,
    fun hr => returned_result asyncLevel c fn sched hc hr⟩

/-- C7: process configures the group with a negative limit (no limit) when asyncLevel is zero
or negative and with exactly asyncLevel when it is positive; with a positive asyncLevel at most
asyncLevel invocations are in flight in every state of every run and a further item is not
submitted while all slots are taken; with asyncLevel at most zero all items can be inside fn at
the same time. -/
theorem process_concurrency_limit {κ α ε : Type} [DecidableEq κ] (asyncLevel : Int)
    (c : Collection κ α) (fn : α → Option ε) (hc : isCollectionKind c.kind = true) :
    (∀ sched, (process asyncLevel c fn sched).limit = groupLimit asyncLevel) ∧
    (asyncLevel ≤ 0 → groupLimit asyncLevel < 0) ∧
    (0 < asyncLevel → groupLimit asyncLevel = asyncLevel) ∧
    (0 < asyncLevel → ∀ sched,
      ((process asyncLevel c fn sched).running.length : Int) ≤ asyncLevel ∧
      (((process asyncLevel c fn sched).spawned.length +
        (process asyncLevel c fn sched).running.length : Nat) : Int) ≤ asyncLevel) ∧
    (0 < asyncLevel → ∀ sched,
      (((process asyncLevel c fn sched).spawned.length +
        (process asyncLevel c fn sched).running.length : Nat) : Int) = asyncLevel →
      step fn (process asyncLevel c fn sched) Action.submit = process asyncLevel c fn sched) ∧
    (asyncLevel ≤ 0 → ∃ sched,
      (process asyncLevel c fn sched).running = List.range (elementsOf c).length) := by
  have hneg : asyncLevel ≤ 0 → groupLimit asyncLevel < 0 := by
    intro h; unfold groupLimit; split <;> omega
  have hpos : 0 < asyncLevel → groupLimit asyncLevel = asyncLevel := by
    intro h; unfold groupLimit; split <;> omega
  refine ⟨fun sched => (inv_process asyncLevel c fn sched hc).2.2, hneg, hpos, ?_, ?_, ?_⟩
  · intro h sched
    obtain ⟨hinv, _, hlim⟩ := inv_process asyncLevel c fn sched hc
    have := hinv.bound (by rw [hlim, hpos h]; omega)
    rw [hlim, hpos h] at this
    constructor
    · push_cast at this; omega
    · exact this
  · intro h sched hfull
    obtain ⟨_, _, hlim⟩ := inv_process asyncLevel c fn sched hc
    have hfree : slotFree (process asyncLevel c fn sched) = false := by
      simp only [slotFree, hlim, hpos h, hfull, Bool.or_eq_false_iff, decide_eq_false_iff_not]
      omega
    simp [step, hfree]
  · intro h
    obtain ⟨sched, s, hs, _, _, hrun, _⟩ :=
      unbounded_all_running fn (groupLimit asyncLevel) (elementsOf c) (hneg h)
        (elementsOf c).length le_rfl
    refine ⟨sched, ?_⟩
    rw [process_eq_exec asyncLevel c fn sched hc, ← hs]
    exact hrun

/-- C9: for a collection value that is not a slice, an array or a map, process returns the
non-nil error naming the kind and invokes fn zero times, for every asyncLevel. -/
theorem process_rejects_non_collection {κ α ε : Type} [DecidableEq κ] (asyncLevel : Int)
    (c : Collection κ α) (fn : α → Option ε) (sched : List Action)
    (hc : isCollectionKind c.kind = false) :
    (process asyncLevel c fn sched).ret =
      some (some (ProcError.badCollection
        ("collection must be a slice, array or map, got " ++ kindString c.kind))) ∧
    (process asyncLevel c fn sched).calls = [] ∧
    (process asyncLevel c fn sched).spawned = [] ∧
    (process asyncLevel c fn sched).running = [] ∧
    (process asyncLevel c fn sched).finished = [] := by
  cases c with
  | slice xs => simp [Collection.kind, isCollectionKind] at hc
  | array xs => simp [Collection.kind, isCollectionKind] at hc
  | map es hnd => simp [Collection.kind, isCollectionKind] at hc
  | other k hk => simp [process, collectItems, initState, Collection.kind]

/-- C3: two documents with the same logical content whose mapping keys are listed in a
different order, at any nesting depth, get the same canonical string from sortYaml and
therefore the same content hash. -/
theorem sortYaml_order_independent (d₁ d₂ : List (String × Value))
    (hs : SameContent (Value.map d₁) (Value.map d₂))
    (hw : wellFormed (Value.map d₁) = true) :
    sortYaml (some d₁) = sortYaml (some d₂) ∧
      hash (sortYaml (some d₁)).1 = hash (sortYaml (some d₂)).1 := by
  have h := (sameContent_print hs hw).2
  have e : sortYaml (some d₁) = sortYaml (some d₂) := by
    simp only [sortYaml, h]
  exact ⟨e, by rw [e]⟩

theorem sortYaml_order_independent_witness :
    sortYaml (some [("url", Value.str "https://charts.example"),
        ("helmChart", Value.map [("version", Value.str "2.9.10"), ("name", Value.str "loki")])]) =
      sortYaml (some [("helmChart",
        Value.map [("name", Value.str "loki"), ("version", Value.str "2.9.10")]),
        ("url", Value.str "https://charts.example")]) ∧
    hash (sortYaml (some [("url", Value.str "https://charts.example"),
        ("helmChart", Value.map [("version", Value.str "2.9.10"), ("name", Value.str "loki")])])).1 =
      hash (sortYaml (some [("helmChart",
        Value.map [("name", Value.str "loki"), ("version", Value.str "2.9.10")]),
        ("url", Value.str "https://charts.example")])).1 :=
  sortYaml_order_independent _ _
    (SameContent.trans (SameContent.permute (List.Perm.swap _ _ []))
      (SameContent.inField [] "helmChart" [("url", Value.str "https://charts.example")]
        (SameContent.permute (List.Perm.swap _ _ []))))
    (by decide)

/-- C4 (as stated, refuted): documents that differ logically can have the same canonical
string and so the same content hash: two descriptors with different values in the fields a
and b; two descriptors whose field ref is the string 1 in one and the integer 1 in the other
(a different type); and two descriptors whose field a is a string in one and a sequence of two
strings in the other (a different structure). -/
theorem sortYaml_not_injective :
    mapIndex [("a", Value.str "1 b:2"), ("b", Value.str "3")] "a" = some (Value.str "1 b:2") ∧
    mapIndex [("a", Value.str "1"), ("b", Value.str "2 b:3")] "a" = some (Value.str "1") ∧
    Value.str "1 b:2" ≠ Value.str "1" ∧
    sortYaml (some [("a", Value.str "1 b:2"), ("b", Value.str "3")]) =
      sortYaml (some [("a", Value.str "1"), ("b", Value.str "2 b:3")]) ∧
    hash (sortYaml (some [("a", Value.str "1 b:2"), ("b", Value.str "3")])).1 =
      hash (sortYaml (some [("a", Value.str "1"), ("b", Value.str "2 b:3")])).1 ∧
    Value.str "1" ≠ Value.int 1 ∧
    sortYaml (some [("ref", Value.str "1")]) = sortYaml (some [("ref", Value.int 1)]) ∧
    Value.str "[x y]" ≠ Value.seq [Value.str "x", Value.str "y"] ∧
    sortYaml (some [("a", Value.str "[x y]")]) =
      sortYaml (some [("a", Value.seq [Value.str "x", Value.str "y"])]) := by
  refine ⟨rfl, rfl, ?_, by decide, by decide, ?_, by decide, ?_, by decide⟩
  · intro h; injection h with h; exact absurd h (by decide)
  · intro h; cases h
  · intro h; cases h

theorem scalar_print_ne {v w : Value} (hk : sameScalarKind v w = true) (hne : v ≠ w) :
    printValue v ≠ printValue w := by
  cases v <;> cases w <;> simp [sameScalarKind] at hk
  · rename_i a b
    intro h
    apply hne
    cases a <;> cases b <;> first | rfl | (simp [printValue] at h)
  · rename_i a b
    intro h
    simp only [printValue] at h
    exact hne (by rw [formatInt_inj a b h])
  · rename_i a b
    intro h
    simp only [printValue] at h
    exact hne (by rw [String.ext h])

/-- C4 (amended): when two descriptors differ in exactly one place, at any nesting depth and
with everything else unchanged, then: if one field's value is altered, the canonical strings of
sortYaml differ exactly when the printed forms of the old and the new value differ, in
particular when the value is replaced by a different scalar of the same type (string, integer
or boolean); and if one field is added or removed, the canonical strings always differ. Whenever
the canonical strings differ, the content hashes are equal only if SHA-256 gives both
canonical strings the same digest. -/
theorem sortYaml_single_field_change (pre post : List (String × Value)) (key : String)
    (ctx : Context) (v w : Value) (before after : List (String × Value)) (k : String)
    (u : Value) :
    ((sortYaml (some (pre ++ (key, ctx.fill v) :: post))).1 =
        (sortYaml (some (pre ++ (key, ctx.fill w) :: post))).1 ↔
      printValue v = printValue w) ∧
    (sameScalarKind v w = true → v ≠ w →
      (sortYaml (some (pre ++ (key, ctx.fill v) :: post))).1 ≠
        (sortYaml (some (pre ++ (key, ctx.fill w) :: post))).1 ∧
      (hash (sortYaml (some (pre ++ (key, ctx.fill v) :: post))).1 =
          hash (sortYaml (some (pre ++ (key, ctx.fill w) :: post))).1 →
        sum256 (stringBytes (sortYaml (some (pre ++ (key, ctx.fill v) :: post))).1) =
          sum256 (stringBytes (sortYaml (some (pre ++ (key, ctx.fill w) :: post))).1))) ∧
    ((sortYaml (some (before ++ (k, u) :: after))).1 ≠ (sortYaml (some (before ++ after))).1 ∧
      (hash (sortYaml (some (before ++ (k, u) :: after))).1 =
          hash (sortYaml (some (before ++ after))).1 →
        sum256 (stringBytes (sortYaml (some (before ++ (k, u) :: after))).1) =
          sum256 (stringBytes (sortYaml (some (before ++ after))).1))) ∧
    ((sortYaml (some (pre ++
          (key, ctx.fill (Value.map (before ++ (k, u) :: after))) :: post))).1 ≠
        (sortYaml (some (pre ++ (key, ctx.fill (Value.map (before ++ after))) :: post))).1 ∧
      (hash (sortYaml (some (pre ++
            (key, ctx.fill (Value.map (before ++ (k, u) :: after))) :: post))).1 =
          hash (sortYaml (some (pre ++
            (key, ctx.fill (Value.map (before ++ after))) :: post))).1 →
        sum256 (stringBytes (sortYaml (some (pre ++
            (key, ctx.fill (Value.map (before ++ (k, u) :: after))) :: post))).1) =
          sum256 (stringBytes (sortYaml (some (pre ++
            (key, ctx.fill (Value.map (before ++ after))) :: post))).1))) := by
  have hiff : ∀ a b : Value, (sortYaml (some (pre ++ (key, ctx.fill a) :: post))).1 =
        (sortYaml (some (pre ++ (key, ctx.fill b) :: post))).1 ↔
      printValue a = printValue b := by
    intro a b
    rw [← printValue_fill_eq_iff (Context.field pre key ctx post) a b]
    simp only [sortYaml, Context.fill]
    constructor
    · intro h; exact congrArg String.data h
    · intro h; rw [h]
  refine ⟨hiff v w, fun hk hne => ⟨?_, fun hh => (hash_eq_iff _ _).1 hh⟩,
    ⟨?_, fun hh => (hash_eq_iff _ _).1 hh⟩, ⟨?_, fun hh => (hash_eq_iff _ _).1 hh⟩⟩
  · intro h
    exact scalar_print_ne hk hne ((hiff v w).1 h)
  · intro h
    simp only [sortYaml] at h
    exact printValue_field_added before after k u (congrArg String.data h)
  · intro h
    exact printValue_field_added before after k u ((hiff _ _).1 h)

theorem sortYaml_single_field_change_witness :
    (sortYaml (some ([("url", Value.str "https://charts.example")] ++
        ("helmChart", (Context.field [("name", Value.str "loki")] "version" Context.here []).fill
          (Value.str "2.9.10")) :: []))).1 ≠
      (sortYaml (some ([("url", Value.str "https://charts.example")] ++
        ("helmChart", (Context.field [("name", Value.str "loki")] "version" Context.here []).fill
          (Value.str "2.9.11")) :: []))).1 ∧
    (sortYaml (some ([("url", Value.str "https://charts.example")] ++
        ("lazy", Value.bool true) :: []))).1 ≠
      (sortYaml (some ([("url", Value.str "https://charts.example")] ++ []))).1 :=
  ⟨((sortYaml_single_field_change [("url", Value.str "https://charts.example")] [] "helmChart"
      (Context.field [("name", Value.str "loki")] "version" Context.here [])
      (Value.str "2.9.10") (Value.str "2.9.11") [] [] "x" Value.null).2.1 rfl
        (fun h => absurd (Value.str.inj h) (by decide))).1,
    (sortYaml_single_field_change [] [] "x" Context.here Value.null Value.null
      [("url", Value.str "https://charts.example")] [] "lazy" (Value.bool true)).2.2.1.1⟩

/-- C5 (as stated, refuted): the hash of the canonical string of an absent document is not
the empty string, an empty mapping does not give the empty canonical string, and its hash is
not empty either. -/
theorem hash_of_absent_not_empty :
    hash (sortYaml none).1 ≠ "" ∧ (sortYaml (some [])).1 ≠ "" ∧
      hash (sortYaml (some [])).1 ≠ "" := by
  decide

/-- C5 (amended): for an absent (nil) document sortYaml yields the empty string and no error,
for an empty mapping it yields the text map[] and no error, and sortYaml never reports an
error; hash turns these into the SHA-256 digests of the empty string and of map[], and every
result of hash consists of exactly 64 characters, each a lower case hexadecimal digit. -/
theorem sortYaml_absent_sentinel :
    sortYaml none = ("", none) ∧
    sortYaml (some []) = ("map[]", none) ∧
    (∀ doc, (sortYaml doc).2 = none) ∧
    hash (sortYaml none).1 =
      "e3b0c44298fc1c149afbf4c8996fb92427ae41e4649b934ca495991b7852b855" ∧
    hash (sortYaml (some [])).1 =
      "52133ddfcd583280388a8bbfb67a417b6b660f75bc63ec1b01beec811d4498ef" ∧
    (∀ s, (hash s).length = 64) ∧
    (∀ s, ∀ c ∈ (hash s).data, c ∈ "0123456789abcdef".data) := by
  refine ⟨rfl, by decide, ?_, by decide, by decide, hash_length, hash_hex⟩
  intro doc
  cases doc <;> rfl

/-- C6: reductSecrets keeps the length and order of args (the i-th output is the redaction
of the i-th argument); a sensitive field followed by a value is rewritten to the field, the
equals sign and the marker; in no output is password=, secret= or token= followed by a run of
non-whitespace characters other than exactly the marker; and msgRunCmd is built from the
redacted arguments only, whose joined text has the same property. -/
theorem reductSecrets_redacts (args : List String) :
    (reductSecrets args).length = args.length ∧
    reductSecrets args = args.map redact ∧
    (∀ out ∈ reductSecrets args, ∀ pre key rest, key ∈ sensitiveFields →
      out.data = pre ++ key ++ '=' :: rest → run rest = [] ∨ run rest = marker) ∧
    (∀ pre key value post, key ∈ sensitiveFields → '=' ∉ pre → value ≠ [] →
      (∀ c ∈ value, isSpace c = false) → startsNonSpace post = false →
      (redact (String.mk (pre ++ key ++ '=' :: value ++ post))).data =
        pre ++ key ++ '=' :: marker ++ (redact (String.mk post)).data) ∧
    (∀ purpose cmd, msgRunCmd purpose cmd args =
      "Running \u001B[34m" ++ cmd ++ "\u001B[0m to: \u001B[3m" ++ purpose ++
        "\u001B[0m\n\u001B[37m" ++ (cmd ++ " " ++ join (reductSecrets args) " ") ++
        "\u001B[0m") ∧
    (∀ pre key rest, key ∈ sensitiveFields →
      (join (reductSecrets args) " ").data = pre ++ key ++ '=' :: rest →
      run rest = [] ∨ run rest = marker) := by
  refine ⟨by simp [reductSecrets_eq_map], reductSecrets_eq_map args, ?_, ?_,
    fun _ _ => rfl, ?_⟩
  · intro out hout pre key rest hk he
    rw [reductSecrets_eq_map] at hout
    obtain ⟨arg, _, rfl⟩ := List.mem_map.1 hout
    rw [redact_data] at he
    exact red_clean _ _ le_rfl pre key rest hk he
  · intro pre key value post hk hpre hv hns hpost
    rw [redact_data, redact_data]
    exact red_first_match key value post hk hv hns hpost pre hpre
  · intro pre key rest hk he
    rw [reductSecrets_eq_map, join_redact] at he
    exact red_clean _ _ le_rfl pre key rest hk he

theorem reductSecrets_redacts_witness :
    reductSecrets ["--set", "db.password=hunter2 --token=abc"] =
        ["--set", "db.password=[REDACTED] --token=[REDACTED]"] ∧
      (run "[REDACTED] --token=[REDACTED]".data = [] ∨
        run "[REDACTED] --token=[REDACTED]".data = marker) :=
  ⟨by decide,
    (reductSecrets_redacts ["--set", "db.password=hunter2 --token=abc"]).2.2.1
      "db.password=[REDACTED] --token=[REDACTED]" (by decide)
      "db.".data "password".data "[REDACTED] --token=[REDACTED]".data (by decide) (by decide)⟩

/-- C8: checkLockFileMatch depends only on the paths of the two lists and not on their order:
permuting either list, or changing hashes and secrets, does not change the result; it is true
when both lists have the same set of paths and false when a declared path is absent from the
lock list. -/
theorem checkLockFileMatch_order_independent (vendirDirs lockFileDirs : List Directory) :
    (∀ v l, vendirDirs.Perm v → lockFileDirs.Perm l →
      checkLockFileMatch vendirDirs lockFileDirs = checkLockFileMatch v l) ∧
    (∀ v l, vendirDirs.map Directory.Path = v.map Directory.Path →
      lockFileDirs.map Directory.Path = l.map Directory.Path →
      checkLockFileMatch vendirDirs lockFileDirs = checkLockFileMatch v l) ∧
    ((∀ p, p ∈ vendirDirs.map Directory.Path ↔ p ∈ lockFileDirs.map Directory.Path) →
      checkLockFileMatch vendirDirs lockFileDirs = true) ∧
    (∀ d ∈ vendirDirs, d.Path ∉ lockFileDirs.map Directory.Path →
      checkLockFileMatch vendirDirs lockFileDirs = false) ∧
    (checkLockFileMatch vendirDirs lockFileDirs = true ↔
      ∀ d ∈ vendirDirs, checkPathMatch d.Path lockFileDirs = true) := by
  refine ⟨?_, ?_, ?_, ?_, ?_⟩
  · intro v l hv hl
    exact checkLockFileMatch_congr _ _ _ _ (fun p => (hv.map _).mem_iff)
      (fun p => (hl.map _).mem_iff)
  · intro v l hv hl
    exact checkLockFileMatch_congr _ _ _ _ (fun p => by rw [hv]) (fun p => by rw [hl])
  · intro h
    rw [checkLockFileMatch_iff]
    intro p hp
    exact (h p).1 hp
  · intro d hd hnot
    rw [← Bool.not_eq_true, checkLockFileMatch_iff]
    intro h
    exact hnot (h d.Path (List.mem_map_of_mem _ hd))
  · simp [checkLockFileMatch]

theorem checkLockFileMatch_order_independent_witness :
    checkLockFileMatch [⟨"path1", "", ""⟩, ⟨"path2", "", ""⟩]
        [⟨"path2", "", ""⟩, ⟨"path1", "", ""⟩] = true ∧
      checkLockFileMatch [⟨"path2", "", ""⟩] [⟨"path1", "", ""⟩] = false ∧
      checkLockFileMatch [⟨"path1", "", ""⟩, ⟨"path2", "", ""⟩]
          [⟨"path2", "", ""⟩, ⟨"path1", "", ""⟩] =
        checkLockFileMatch [⟨"path2", "", ""⟩, ⟨"path1", "", ""⟩]
          [⟨"path1", "h", "s"⟩, ⟨"path2", "", ""⟩] :=
  ⟨(checkLockFileMatch_order_independent [⟨"path1", "", ""⟩, ⟨"path2", "", ""⟩]
      [⟨"path2", "", ""⟩, ⟨"path1", "", ""⟩]).2.2.1 (fun p => by simp [or_comm]),
    (checkLockFileMatch_order_independent [⟨"path2", "", ""⟩] [⟨"path1", "", ""⟩]).2.2.2.1
      ⟨"path2", "", ""⟩ (by decide) (by decide),
    by decide⟩

/-- C10: reductSecrets is idempotent, and an argument with no occurrence of password=,
secret= or token= followed by a non-whitespace character is returned unchanged at the same
position. -/
theorem reductSecrets_idempotent (args : List String) :
    reductSecrets (reductSecrets args) = reductSecrets args ∧
    (∀ (i : Nat) (arg : String), args[i]? = some arg →
      (∀ key ∈ sensitiveFields, ∀ pre d rest,
        arg.data = pre ++ key ++ '=' :: d :: rest → isSpace d = true) →
      (reductSecrets args)[i]? = some arg) := by
  constructor
  · rw [reductSecrets_eq_map, reductSecrets_eq_map, List.map_map]
    refine List.map_congr_left ?_
    intro a _
    apply String.ext
    simp only [Function.comp, redact_data]
    exact red_idem _ _ le_rfl
  · intro i arg hi h
    rw [reductSecrets_eq_map, List.getElem?_map, hi]
    simp only [Option.map_some', Option.some.injEq]
    apply String.ext
    rw [redact_data]
    exact red_unchanged arg.data h

theorem reductSecrets_idempotent_witness :
    (reductSecrets ["template", "--set", "token= x=1"])[1]? = some "--set" :=
  (reductSecrets_idempotent ["template", "--set", "token= x=1"]).2 1 "--set" rfl (by
    intro key hk pre d rest he
    exfalso
    have hmem : '=' ∈ "--set".data := by rw [he]; simp
    exact absurd hmem (by decide))

theorem process_invokes_each_item_once_witness :
    ((process 2 (Collection.slice [10, 11, 12] : Collection Nat Nat)
        (fun n => if n = 11 then some "boom" else none)
        [Action.submit, Action.submit, Action.start 1, Action.finish 1, Action.submit,
          Action.start 0, Action.start 2, Action.finish 2, Action.finish 0,
          Action.wait]).calls.map Prod.snd).Perm [10, 11, 12] :=
  ((process_invokes_each_item_once 2 (Collection.slice [10, 11, 12] : Collection Nat Nat)
      (fun n => if n = 11 then some "boom" else none)
      [Action.submit, Action.submit, Action.start 1, Action.finish 1, Action.submit,
        Action.start 0, Action.start 2, Action.finish 2, Action.finish 0, Action.wait]
      rfl).2.2.2.1 (by decide)).2

theorem process_returns_first_error_witness :
    (process 0 (Collection.map [("a", 10), ("b", 11), ("c", 13)] (by decide))
        (fun n => if n % 2 = 1 then some n else none)
        [Action.submit, Action.submit, Action.submit, Action.start 2, Action.start 1,
          Action.start 0, Action.finish 0, Action.finish 2, Action.finish 1,
          Action.wait]).ret = some (some (ProcError.failed 13)) :=
  ((process_returns_first_error 0 (Collection.map [("a", 10), ("b", 11), ("c", 13)] (by decide))
      (fun n => if n % 2 = 1 then some n else none)
      [Action.submit, Action.submit, Action.submit, Action.start 2, Action.start 1,
        Action.start 0, Action.finish 0, Action.finish 2, Action.finish 1, Action.wait]
      rfl).2 (by decide)).2.2.2.1.trans (by decide)

theorem process_concurrency_limit_witness :
    ((process 2 (Collection.array [1, 2, 3] : Collection Nat Nat) (fun _ => (none : Option Unit))
        [Action.submit, Action.submit, Action.submit, Action.start 0, Action.start 1,
          Action.start 2]).running.length : Int) ≤ 2 ∧
      ∃ sched, (process (-3) (Collection.array [1, 2, 3] : Collection Nat Nat)
        (fun _ => (none : Option Unit)) sched).running = List.range 3 :=
  ⟨((process_concurrency_limit 2 (Collection.array [1, 2, 3] : Collection Nat Nat)
      (fun _ => (none : Option Unit)) rfl).2.2.2.1 (by decide) _).1,
    (process_concurrency_limit (-3) (Collection.array [1, 2, 3] : Collection Nat Nat)
      (fun _ => (none : Option Unit)) rfl).2.2.2.2.2 (by decide)⟩

theorem process_rejects_non_collection_witness :
    (process 4 (Collection.other Kind.Invalid rfl : Collection Nat Nat)
        (fun _ => (none : Option Unit)) [Action.submit, Action.start 0, Action.wait]).ret =
      some (some (ProcError.badCollection
        "collection must be a slice, array or map, got invalid")) ∧
    (process 4 (Collection.other Kind.Pointer rfl : Collection Nat Nat)
        (fun _ => (none : Option Unit)) [Action.submit, Action.start 0, Action.wait]).calls = [] :=
  ⟨(process_rejects_non_collection 4 (Collection.other Kind.Invalid rfl) _ _ rfl).1,
    (process_rejects_non_collection 4 (Collection.other Kind.Pointer rfl) _ _ rfl).2.1⟩

end Myks
